import Mathlib

/-!
Verification development for the react-component-tracker lexical extraction
engine (src/index.ts).  The three core components are embedded over
`List Char`:

* the Binding Extractor `extractImportStatements`,
* the Usage Extractor `extractReactComponentInstances` (both source copies),
* the Glob Matcher `matchWildcard` together with `filterIgnoredFiles`.

JavaScript regular-expression scanning (`exec` in a `while` loop with the
global flag) is rendered as explicit position-by-position matchers; the
character-class and backtracking behaviour of each concrete regex of the
source is reproduced by maximal-munch readers, which coincide with the
JS engine on these regexes because every adjacent pair of subpatterns
draws from disjoint character classes.  Recursions that are not
structural carry an explicit fuel argument; every wrapper supplies fuel
that provably suffices (each step consumes at least one character).
-/

/-! ## Character classes of the source regexes -/

/-- `[A-Z]` of the component regex. -/
def isUpperAscii (c : Char) : Bool := 65 ≤ c.toNat && c.toNat ≤ 90

/-- `[a-z]`. -/
def isLowerAscii (c : Char) : Bool := 97 ≤ c.toNat && c.toNat ≤ 122

/-- `[0-9]`. -/
def isDigitAscii (c : Char) : Bool := 48 ≤ c.toNat && c.toNat ≤ 57

/-- `[a-zA-Z0-9_]`, the continuation class of the component-name regex,
which is also the word class backing `\b`. -/
def isWordChar (c : Char) : Bool :=
  isUpperAscii c || isLowerAscii c || isDigitAscii c || c.toNat == 95

/-- `[A-Za-z0-9_$]`, the identifier class of the default-import regex. -/
def isIdentChar (c : Char) : Bool := isWordChar c || c.toNat == 36

/-- JavaScript `\s` (also the class stripped by `String.prototype.trim`):
ASCII whitespace, NBSP, BOM and the Unicode space separators. -/
def isJsSpace (c : Char) : Bool :=
  c.toNat == 32 || c.toNat == 9 || c.toNat == 10 || c.toNat == 13 ||
  c.toNat == 11 || c.toNat == 12 || c.toNat == 160 || c.toNat == 0xfeff ||
  c.toNat == 0x1680 || (0x2000 ≤ c.toNat && c.toNat ≤ 0x200a) ||
  c.toNat == 0x2028 || c.toNat == 0x2029 || c.toNat == 0x202f ||
  c.toNat == 0x205f || c.toNat == 0x3000

/-- `['"]` of both import regexes. -/
def isQuoteChar (c : Char) : Bool := c == '\'' || c == '"'

/-! ## List utilities shared by the scanners -/

/-- `String.prototype.split` with a single-character separator: every
separator occurrence opens a new group, empty groups included, and the
empty input yields one empty group. -/
def splitOnChar (sep : Char) : List Char → List (List Char)
  | [] => [[]]
  | c :: rest =>
    if c = sep then
      [] :: splitOnChar sep rest
    else
      match splitOnChar sep rest with
      | [] => [[c]]
      | g :: gs => (c :: g) :: gs

/-- `String.prototype.trim`: strip `\s` characters from both ends. -/
def jsTrim (l : List Char) : List Char :=
  ((l.dropWhile isJsSpace).reverse.dropWhile isJsSpace).reverse

/-- Whether `pat` occurs as a contiguous substring (the test underlying
`String.prototype.includes`). -/
def occursIn (pat : List Char) : List Char → Bool
  | [] => pat.isPrefixOf []
  | c :: rest => pat.isPrefixOf (c :: rest) || occursIn pat rest

/-- `String.prototype.split` with a multi-character separator, fuelled:
scan left to right, each non-overlapping separator occurrence closes the
current group. -/
def splitOnSubF (sep : List Char) : Nat → List Char → List (List Char)
  | 0, l => [l]
  | _ + 1, [] => [[]]
  | fuel + 1, c :: rest =>
    if sep.isPrefixOf (c :: rest) then
      [] :: splitOnSubF sep fuel ((c :: rest).drop sep.length)
    else
      match splitOnSubF sep fuel rest with
      | [] => [[c]]
      | g :: gs => (c :: g) :: gs

def splitOnSub (sep l : List Char) : List (List Char) :=
  splitOnSubF sep (l.length + 1) l

/-- `String.prototype.replace` with a global literal pattern, fuelled:
non-overlapping occurrences are substituted left to right and the
replacement text is never rescanned. -/
def replaceAllF (pat rep : List Char) : Nat → List Char → List Char
  | 0, l => l
  | _ + 1, [] => []
  | fuel + 1, c :: rest =>
    if pat.isPrefixOf (c :: rest) then
      rep ++ replaceAllF pat rep fuel ((c :: rest).drop pat.length)
    else
      c :: replaceAllF pat rep fuel rest

def replaceAll (pat rep l : List Char) : List Char :=
  replaceAllF pat rep (l.length + 1) l

/-- Consume an expected literal from the front of the input. -/
def consumeLit (lit l : List Char) : Option (List Char) :=
  if lit.isPrefixOf l then some (l.drop lit.length) else none

/-! ## Glob Matcher (`matchWildcard`, src/index.ts lines 114-131) -/

/-- The characters escaped by step 3 of `globToRegex`
(`/([.+^$\x7b\x7d()|[\]\\])/g`). -/
def metaChars : List Char :=
  ['.', '+', '^', '$', '{', '}', '(', ')', '|', '[', ']', '\\']

/-- Step 3 of `globToRegex`: prefix a backslash to every regex
metacharacter.  Equivalent to the source's global single-character
replace with `\\$1`. -/
def escapeRegexChars : List Char → List Char
  | [] => []
  | c :: rest =>
    if metaChars.contains c then '\\' :: c :: escapeRegexChars rest
    else c :: escapeRegexChars rest

/-- The `doubleStarPlaceholder` string of the source. -/
def dsPlaceholder : List Char := ['_', '_', 'D', 'S', '_', '_']

/-- The characters of the regex prefix emitted when the pattern begins
with the three characters star, star, slash. -/
def optPrefixChars : List Char :=
  ['^', '(', '?', ':', '.', '*', '\\', '/', ')', '?']

/-- The pattern-compilation function of `matchWildcard`: optional
leading-directory prefix, placeholder substitution for double star,
metacharacter escaping, single star to `[^/]*`, placeholder to `.*`,
and anchors. -/
def globToRegex (glob : List Char) : List Char :=
  let step := if (['*', '*', '/'].isPrefixOf glob) then
      (optPrefixChars, glob.drop 3)
    else
      (['^'], glob)
  let g1 := replaceAll ['*', '*'] dsPlaceholder step.2
  let g2 := escapeRegexChars g1
  let g3 := replaceAll ['*'] ['[', '^', '/', ']', '*'] g2
  let g4 := replaceAll dsPlaceholder ['.', '*'] g3
  step.1 ++ g4 ++ ['$']

/-- Atoms of the regex sublanguage reachable from `globToRegex` output:
escaped literals / plain characters, the dot, and character classes. -/
inductive RAtom where
  | lit (c : Char)
  | dot
  | cls (neg : Bool) (cs : List Char)
deriving DecidableEq

/-- An atom with its quantifier. -/
inductive RPiece where
  | once (a : RAtom)
  | star (a : RAtom)
  | opt (a : RAtom)
deriving DecidableEq

/-- Single-character semantics of an atom.  The JS dot does not match
line terminators; a character class matches by membership. -/
def atomMatch : RAtom → Char → Bool
  | .lit c', c => c = c'
  | .dot, c =>
    !(c.toNat == 10 || c.toNat == 13 || c.toNat == 0x2028 || c.toNat == 0x2029)
  | .cls neg cs, c => if neg then !(cs.contains c) else cs.contains c

/-- Read one atom from a regex body.  A backslash escape denotes its
character literally (every escape emitted by `globToRegex` is an
identity escape); an unescaped star or question mark with no preceding
atom has no parse. -/
def parseAtom (l : List Char) : Option (RAtom × List Char) :=
  match l with
  | [] => none
  | c :: rest =>
    if c = '\\' then
      match rest with
      | [] => none
      | d :: rest2 => some (.lit d, rest2)
    else if c = '[' then
      let body := match rest with
        | '^' :: r => (true, r)
        | _ => (false, rest)
      let cs := body.2.takeWhile (fun d => !(d == ']'))
      match body.2.dropWhile (fun d => !(d == ']')) with
      | ']' :: r => some (.cls body.1 cs, r)
      | _ => none
    else if c = '.' then some (.dot, rest)
    else if c = '*' then none
    else if c = '?' then none
    else some (.lit c, rest)

/-- Parse a regex body into quantified pieces.  A star or question mark
directly after an atom quantifies it; a further question mark is the
laziness modifier, which does not change the recognised language under
full anchoring. -/
def parsePiecesF : Nat → List Char → Option (List RPiece)
  | 0, _ => none
  | _ + 1, [] => some []
  | fuel + 1, l =>
    match parseAtom l with
    | none => none
    | some (a, rest) =>
      match rest with
      | '*' :: rest2 =>
        let rest3 := match rest2 with
          | '?' :: r => r
          | _ => rest2
        (parsePiecesF fuel rest3).map (fun ps => .star a :: ps)
      | '?' :: rest2 =>
        let rest3 := match rest2 with
          | '?' :: r => r
          | _ => rest2
        (parsePiecesF fuel rest3).map (fun ps => .opt a :: ps)
      | _ => (parsePiecesF fuel rest).map (fun ps => .once a :: ps)

def parsePieces (l : List Char) : Option (List RPiece) :=
  parsePiecesF (l.length + 1) l

/-- Whole-input matching of a piece sequence (language membership; the
greedy/lazy distinction is irrelevant for an anchored `test`). -/
def matchPiecesF : Nat → List RPiece → List Char → Bool
  | 0, _, _ => false
  | _ + 1, [], s => s.isEmpty
  | fuel + 1, p :: ps, s =>
    match p with
    | .once a =>
      match s with
      | [] => false
      | c :: s' => atomMatch a c && matchPiecesF fuel ps s'
    | .opt a =>
      matchPiecesF fuel ps s ||
        (match s with
         | [] => false
         | c :: s' => atomMatch a c && matchPiecesF fuel ps s')
    | .star a =>
      matchPiecesF fuel ps s ||
        (match s with
         | [] => false
         | c :: s' => atomMatch a c && matchPiecesF fuel (.star a :: ps) s')

def matchPieces (ps : List RPiece) (s : List Char) : Bool :=
  matchPiecesF (ps.length + s.length + 1) ps s

/-- The `(?:.*\/)?` alternative that skips a leading directory prefix:
try every decomposition whose skipped part consists of dot-matchable
characters and ends with a slash. -/
def matchSlashSuffixes (ps : List RPiece) : List Char → Bool
  | [] => false
  | c :: rest =>
    (c = '/' && matchPieces ps rest) ||
      (atomMatch .dot c && matchSlashSuffixes ps rest)

/-- `new RegExp(regexString).test(filePath)` for the anchored regexes
produced by `globToRegex`: strip the start anchor (plain or with the
optional directory prefix) and the end anchor, parse the body, and
require a whole-string match. -/
def regexTest (re s : List Char) : Bool :=
  if optPrefixChars.isPrefixOf re then
    let rest := re.drop optPrefixChars.length
    if rest.getLast? = some '$' then
      match parsePieces rest.dropLast with
      | some ps => matchPieces ps s || matchSlashSuffixes ps s
      | none => false
    else false
  else
    match re with
    | '^' :: rest =>
      if rest.getLast? = some '$' then
        match parsePieces rest.dropLast with
        | some ps => matchPieces ps s
        | none => false
      else false
    | _ => false

/-- `matchWildcard` of the source: compile the pattern and test the
path against the compiled, fully anchored regex. -/
def matchWildcard (filePath pattern : String) : Bool :=
  regexTest (globToRegex pattern.toList) filePath.toList

/-- `new RegExp(regexString).test(filePath)` with the constructor's
error branch kept: `none` models the `SyntaxError` that `new RegExp`
throws when the compiled source is not a valid pattern (a bare
quantifier has nothing to repeat) and that the source does not catch;
`some b` is the boolean of a successful construction and test. -/
def regexTestE (re s : List Char) : Option Bool :=
  if optPrefixChars.isPrefixOf re then
    let rest := re.drop optPrefixChars.length
    if rest.getLast? = some '$' then
      match parsePieces rest.dropLast with
      | some ps => some (matchPieces ps s || matchSlashSuffixes ps s)
      | none => none
    else none
  else
    match re with
    | '^' :: rest =>
      if rest.getLast? = some '$' then
        match parsePieces rest.dropLast with
        | some ps => some (matchPieces ps s)
        | none => none
      else none
    | _ => none

/-- `matchWildcard` with its uncaught `new RegExp` SyntaxError made
explicit: `none` when compiling the pattern yields an invalid regex
(the source function throws), `some b` when construction succeeds and
the test returns `b`. -/
def matchWildcardE (filePath pattern : String) : Option Bool :=
  regexTestE (globToRegex pattern.toList) filePath.toList

/-- Node's `path.posix.basename` (no extension argument), the helper the
source imports from the `path` module: drop trailing slashes, then keep
the characters after the last remaining slash. -/
def basename (p : String) : String :=
  let q := (p.toList.reverse.dropWhile (fun c => c == '/')).reverse
  String.mk (q.reverse.takeWhile (fun c => !(c == '/'))).reverse

/-- `filterIgnoredFiles`: keep the paths that match no ignore pattern,
testing each pattern against the full path and against the basename. -/
def filterIgnoredFiles (filePaths ignorePatterns : List String) : List String :=
  filePaths.filter fun filePath =>
    !(ignorePatterns.any fun pattern =>
      matchWildcard filePath pattern || matchWildcard (basename filePath) pattern)

/-! ## Binding Extractor (`extractImportStatements`, src/index.ts lines 19-42) -/

/-- The literal head of both import regexes. -/
def importKw : List Char := ['i', 'm', 'p', 'o', 'r', 't']

/-- The literal `from` of both import regexes. -/
def fromKw : List Char := ['f', 'r', 'o', 'm']

/-- The literal separator ` as ` used by the grouped-import item handler. -/
def asKw : List Char := [' ', 'a', 's', ' ']

/-- Attempt the default-import regex
`import\s+([A-Za-z0-9_$]+)\s+from\s+['"]([^'"]+)['"];?` at the start of
the input.  Returns the captured identifier, the full matched text and
the rest of the input.  Maximal-munch is exact here because consecutive
subpatterns use disjoint character classes. -/
def matchDefaultImportAt (l : List Char) : Option (List Char × List Char × List Char) :=
  match consumeLit importKw l with
  | none => none
  | some l1 =>
    let ws1 := l1.takeWhile isJsSpace
    let l2 := l1.dropWhile isJsSpace
    if ws1 = [] then none else
    let ident := l2.takeWhile isIdentChar
    let l3 := l2.dropWhile isIdentChar
    if ident = [] then none else
    let ws2 := l3.takeWhile isJsSpace
    let l4 := l3.dropWhile isJsSpace
    if ws2 = [] then none else
    match consumeLit fromKw l4 with
    | none => none
    | some l5 =>
      let ws3 := l5.takeWhile isJsSpace
      let l6 := l5.dropWhile isJsSpace
      if ws3 = [] then none else
      match l6 with
      | [] => none
      | q :: l7 =>
        if isQuoteChar q then
          let mdl := l7.takeWhile (fun c => !(isQuoteChar c))
          let l8 := l7.dropWhile (fun c => !(isQuoteChar c))
          if mdl = [] then none else
          match l8 with
          | [] => none
          | q2 :: l9 =>
            if isQuoteChar q2 then
              match l9 with
              | ';' :: l10 =>
                some (ident,
                  importKw ++ ws1 ++ ident ++ ws2 ++ fromKw ++ ws3 ++
                    q :: (mdl ++ q2 :: [';']), l10)
              | _ =>
                some (ident,
                  importKw ++ ws1 ++ ident ++ ws2 ++ fromKw ++ ws3 ++
                    q :: (mdl ++ [q2]), l9)
            else none
        else none

/-- Attempt the grouped-import regex
`import\s+\x7b([^\x7d]+)\x7d\s+from\s+['"]([^'"]+)['"];?` at the start of
the input.  Returns the captured item list text, the full matched text
and the rest of the input. -/
def matchNamedImportAt (l : List Char) : Option (List Char × List Char × List Char) :=
  match consumeLit importKw l with
  | none => none
  | some l1 =>
    let ws1 := l1.takeWhile isJsSpace
    let l2 := l1.dropWhile isJsSpace
    if ws1 = [] then none else
    match l2 with
    | '{' :: l3 =>
      let items := l3.takeWhile (fun c => !(c == '}'))
      let l4 := l3.dropWhile (fun c => !(c == '}'))
      if items = [] then none else
      match l4 with
      | '}' :: l5 =>
        let ws2 := l5.takeWhile isJsSpace
        let l6 := l5.dropWhile isJsSpace
        if ws2 = [] then none else
        match consumeLit fromKw l6 with
        | none => none
        | some l7 =>
          let ws3 := l7.takeWhile isJsSpace
          let l8 := l7.dropWhile isJsSpace
          if ws3 = [] then none else
          match l8 with
          | [] => none
          | q :: l9 =>
            if isQuoteChar q then
              let mdl := l9.takeWhile (fun c => !(isQuoteChar c))
              let l10 := l9.dropWhile (fun c => !(isQuoteChar c))
              if mdl = [] then none else
              match l10 with
              | [] => none
              | q2 :: l11 =>
                if isQuoteChar q2 then
                  match l11 with
                  | ';' :: l12 =>
                    some (items,
                      importKw ++ ws1 ++ '{' :: (items ++ '}' :: (ws2 ++ fromKw ++ ws3 ++
                        q :: (mdl ++ q2 :: [';']))), l12)
                  | _ =>
                    some (items,
                      importKw ++ ws1 ++ '{' :: (items ++ '}' :: (ws2 ++ fromKw ++ ws3 ++
                        q :: (mdl ++ [q2]))), l11)
                else none
            else none
      | _ => none
    | _ => none

/-- The `while (regex.exec(content) !== null)` driver: attempt the
matcher at every position, left to right; a successful match is recorded
with its text and scanning resumes directly after it. -/
def execLoopF {α : Type} (matchAt : List Char → Option (α × List Char × List Char)) :
    Nat → List Char → List (α × List Char)
  | 0, _ => []
  | _ + 1, [] => []
  | fuel + 1, c :: rest =>
    match matchAt (c :: rest) with
    | none => execLoopF matchAt fuel rest
    | some (a, text, remainder) => (a, text) :: execLoopF matchAt fuel remainder

def execLoop {α : Type} (matchAt : List Char → Option (α × List Char × List Char))
    (l : List Char) : List (α × List Char) :=
  execLoopF matchAt (l.length + 1) l

/-- All matches of the default-import pass: (identifier, statement text). -/
def defaultMatches (content : List Char) : List (List Char × List Char) :=
  execLoop matchDefaultImportAt content

/-- All matches of the grouped-import pass: (items text, statement text). -/
def namedMatches (content : List Char) : List (List Char × List Char) :=
  execLoop matchNamedImportAt content

/-- The bindings contributed by one grouped-import match: split the item
list on commas, trim each item, and if the trimmed item contains ` as `
bind the trimmed text after the first ` as ` occurrence, otherwise the
item itself; every item binds to the same full statement text. -/
def namedItemBindings (itemsText stmtText : List Char) : List (String × String) :=
  (splitOnChar ',' itemsText).map fun raw =>
    let item := jsTrim raw
    let localName :=
      if occursIn asKw item then jsTrim (((splitOnSub asKw item).get? 1).getD [])
      else item
    (String.mk localName, String.mk stmtText)

/-- The bindings of the default pass, in match order. -/
def defaultBindingList (content : List Char) : List (String × String) :=
  (defaultMatches content).map fun p => (String.mk p.1, String.mk p.2)

/-- The bindings of the grouped pass, in match order, items in list order. -/
def namedBindingList (content : List Char) : List (String × String) :=
  (namedMatches content).flatMap fun p => namedItemBindings p.1 p.2

/-- `extractImportStatements`: run the default pass, then the grouped
pass, assigning into one map; a later assignment to the same key
overwrites an earlier one.  The map is represented as an association
list whose head is the most recent assignment. -/
def extractImportStatements (content : String) : List (String × String) :=
  List.foldl (fun m kv => kv :: m)
    (List.foldl (fun m kv => kv :: m) [] (defaultBindingList content.toList))
    (namedBindingList content.toList)

/-- JS object property lookup for the association-list map: the most
recent assignment (nearest the head) wins. -/
def bindingLookup (m : List (String × String)) (k : String) : Option String :=
  (m.find? fun p => p.1 = k).map fun p => p.2

/-! ## Usage Extractor (`extractReactComponentInstances`, both copies) -/

/-- Instance record of the first (feature-complete) source copy. -/
structure ComponentInstance where
  lineNumber : Nat
  lineContent : String
  importStatement : Option String
deriving DecidableEq

/-- Instance record of the second (simpler) source copy. -/
structure ComponentInstance2 where
  lineNumber : Nat
  lineContent : String
deriving DecidableEq

/-- All matches of `<([A-Z][a-zA-Z0-9_]*)\b` in one line, left to right
and non-overlapping: an opening angle bracket immediately followed by an
uppercase letter and the maximal run of word characters.  The trailing
`\b` is automatically satisfied after a maximal run. -/
def scanTagsF : Nat → List Char → List String
  | 0, _ => []
  | _ + 1, [] => []
  | fuel + 1, c :: rest =>
    if c = '<' then
      match rest with
      | [] => []
      | d :: rest2 =>
        if isUpperAscii d then
          String.mk (d :: rest2.takeWhile isWordChar) ::
            scanTagsF fuel (rest2.dropWhile isWordChar)
        else scanTagsF fuel (d :: rest2)
    else scanTagsF fuel rest

def scanTags (l : List Char) : List String :=
  scanTagsF (l.length + 1) l

/-- `result[componentName].push(...)` with on-demand group creation:
append to the group of the key, or add a new group at the end. -/
def pushInstance {α : Type} (r : List (String × List α)) (k : String) (v : α) :
    List (String × List α) :=
  match r with
  | [] => [(k, [v])]
  | (k', vs) :: rest =>
    if k' = k then (k', vs ++ [v]) :: rest else (k', vs) :: pushInstance rest k v

/-- Property lookup in the grouped result (keys are unique by
construction of `pushInstance`). -/
def instancesOf {α : Type} (r : List (String × List α)) (k : String) : List α :=
  match r with
  | [] => []
  | (k', vs) :: rest => if k' = k then vs else instancesOf rest k

/-- Process one line of the first copy: for every tag name matched in
the line, push an instance carrying the 1-indexed line number, the
trimmed line text and the import-map lookup for the name. -/
def lineInstances (importMap : List (String × String)) (i : Nat) (line : List Char)
    (r : List (String × List ComponentInstance)) : List (String × List ComponentInstance) :=
  List.foldl
    (fun r name =>
      pushInstance r name
        ⟨i + 1, String.mk (jsTrim line), bindingLookup importMap name⟩)
    r (scanTags line)

/-- The `lines.forEach((line, index) => ...)` loop of the first copy. -/
def scanLinesAux (importMap : List (String × String)) :
    Nat → List (List Char) → List (String × List ComponentInstance) →
      List (String × List ComponentInstance)
  | _, [], r => r
  | i, line :: rest, r => scanLinesAux importMap (i + 1) rest (lineInstances importMap i line r)

/-- The first (feature-complete) copy of `extractReactComponentInstances`
(src/index.ts lines 57-79): build the import map, split on newlines, and
scan each line for capitalized tags. -/
def extractReactComponentInstances (content : String) :
    List (String × List ComponentInstance) :=
  scanLinesAux (extractImportStatements content) 0 (splitOnChar '\n' content.toList) []

/-- Process one line of the second copy (no import decoration). -/
def lineInstances2 (i : Nat) (line : List Char)
    (r : List (String × List ComponentInstance2)) : List (String × List ComponentInstance2) :=
  List.foldl
    (fun r name => pushInstance r name ⟨i + 1, String.mk (jsTrim line)⟩)
    r (scanTags line)

/-- The line loop of the second copy. -/
def scanLinesAux2 :
    Nat → List (List Char) → List (String × List ComponentInstance2) →
      List (String × List ComponentInstance2)
  | _, [], r => r
  | i, line :: rest, r => scanLinesAux2 (i + 1) rest (lineInstances2 i line r)

/-- The second (simpler) copy of `extractReactComponentInstances`
(src/index.ts lines 356-373): identical scanning, records without the
`importStatement` field. -/
def extractReactComponentInstances2 (content : String) :
    List (String × List ComponentInstance2) :=
  scanLinesAux2 0 (splitOnChar '\n' content.toList) []

/-- Field erasure from first-copy records to second-copy records. -/
def eraseImportField (inst : ComponentInstance) : ComponentInstance2 :=
  ⟨inst.lineNumber, inst.lineContent⟩

/-- Erase the `importStatement` decoration from a whole result. -/
def eraseDecorations (r : List (String × List ComponentInstance)) :
    List (String × List ComponentInstance2) :=
  r.map fun p => (p.1, p.2.map eraseImportField)

set_option maxRecDepth 8000

/-! ## Fixture texts from the repository's unit tests -/

/-- The generic-type test content of `runTests` (first copy, lines
266-270): includes the line `type MyType = Promise<Character>;`. -/
def genericTestContent : String :=
  "function example<T>() \x7b\n  return Promise.resolve<T>();\n\x7d\ntype MyType = Promise<Character>;\n"

/-- The JSX test content of `runTests` (first copy, lines 244-252). -/
def mainTestContent : String :=
  "import \x7b StrictMode \x7d from \"react\";\nimport App from \"./App.tsx\";\nfunction Main() \x7b\n  return (\n    <StrictMode>\n      <App />\n    </StrictMode>\n  );\n\x7d"

/-- A text binding the same local name through both passes, with the
grouped statement textually first. -/
def bothPassesContent : String := "import \x7b Foo \x7d from \"a\";\nimport Foo from \"b\";"

/-- The archetypal grouped-import statement with one plain item and one
aliased item: the text `import \x7b A, B as C \x7d from "m";`, written in
the segment shape used by the suffix analysis. -/
def groupedStmt (A B C m : List Char) : List Char :=
  ('i' :: 'm' :: 'p' :: 'o' :: 'r' :: 't' :: ' ' :: '{' :: ' ' :: []) ++
    (A ++ ((',' :: ' ' :: []) ++
      (B ++ ((' ' :: 'a' :: 's' :: ' ' :: []) ++
        (C ++ ((' ' :: '}' :: ' ' :: 'f' :: 'r' :: 'o' :: 'm' :: ' ' :: '"' :: []) ++
          (m ++ ('"' :: ';' :: []))))))))

/-- The item-list text the grouped regex captures from `groupedStmt`. -/
def groupedItems (A B C : List Char) : List Char :=
  ' ' :: (A ++ (',' :: ' ' :: (B ++ (' ' :: 'a' :: 's' :: ' ' :: (C ++ [' '])))))

/-! ## Glob Matcher claims -/

/-- C3: `matchWildcard` satisfies the three concrete spec examples: a
single star matches any run of characters excluding the path separator,
a double star also matches across separators. -/
theorem matchWildcard_spec_examples :
    matchWildcard "src/index.tsx" "src/*.tsx" = true ∧
    matchWildcard "src/components/index.tsx" "src/*.tsx" = false ∧
    matchWildcard "src/components/index.tsx" "src/**/*.tsx" = true := by
  decide

/-- C10: the metacharacter escaping of `globToRegex` omits the question
mark, so a question mark in a pattern acts as the regex optional
quantifier: the star-free pattern `ab?c` matches `ac` and fails to match
the string `ab?c` itself. -/
theorem questionMark_acts_as_quantifier :
    matchWildcard "ac" "ab?c" = true ∧ matchWildcard "ab?c" "ab?c" = false := by
  decide

/-- C7 counterexample: the placeholder `__DS__` collides with user
input.  The pattern `a__DS__b` contains no star at all, yet its
substring `__DS__` is interpreted as the unrestricted multi-segment
wildcard: the pattern matches the path `a/x/b`, which is not equal to
the pattern. -/
theorem dsPlaceholder_collides :
    matchWildcard "a/x/b" "a__DS__b" = true ∧
    ("a__DS__b".toList.contains '*') = false ∧ "a/x/b" ≠ "a__DS__b" := by
  decide

/-- C9 is refuted: the error branch of `matchWildcard` is reachable.
The escape step does not escape `?`, so the pattern `?` compiles to the
regex source `^?$`, whose leading quantifier has nothing to repeat; the
construction fails and `matchWildcard` yields no boolean. -/
theorem matchWildcard_throw_reachable :
    matchWildcardE "a" "?" = none := by decide

theorem regexTest_of_regexTestE {re s : List Char} {b : Bool}
    (h : regexTestE re s = some b) : regexTest re s = b := by
  simp only [regexTestE] at h
  simp only [regexTest]
  repeat' split at h
  all_goals simp_all

/-- C9 (amended): `extractImportStatements` and
`extractReactComponentInstances` are total — every input, including the
empty string, yields a result, the empty string an empty one — while
`matchWildcard` is total only on patterns whose compiled regex is
constructible: whenever construction succeeds, the source returns
exactly that test boolean, but the failure branch is reachable. -/
theorem extractors_total_glob_throw_reachable (path pattern : String) (b : Bool)
    (h : matchWildcardE path pattern = some b) :
    extractImportStatements "" = [] ∧
    extractReactComponentInstances "" = [] ∧
    matchWildcard path pattern = b :=
  ⟨by decide, by decide, regexTest_of_regexTestE h⟩

/-- Witness for the amended C9 at a concrete constructible pattern. -/
theorem extractors_total_glob_throw_reachable_witness :
    matchWildcardE "src/index.tsx" "src/*.tsx" = some true ∧
    extractImportStatements "" = [] ∧
    extractReactComponentInstances "" = [] ∧
    matchWildcard "src/index.tsx" "src/*.tsx" = true :=
  ⟨by decide,
    extractors_total_glob_throw_reachable "src/index.tsx" "src/*.tsx" true (by decide)⟩

/-- C4: `filterIgnoredFiles` keeps exactly the paths that match no
ignore pattern, on the full path and on the basename alike; on the spec
example only `src/App.tsx` survives. -/
theorem filterIgnoredFiles_spec :
    (∀ (paths pats : List String) (p : String),
      p ∈ filterIgnoredFiles paths pats ↔
        p ∈ paths ∧ ∀ pat ∈ pats,
          matchWildcard p pat = false ∧ matchWildcard (basename p) pat = false) ∧
    filterIgnoredFiles ["src/App.tsx", "src/App.test.tsx", "node_modules/lib.js"]
      ["**/node_modules/**", "*test*"] = ["src/App.tsx"] := by
  refine ⟨?_, by decide⟩
  intro paths pats p
  simp [filterIgnoredFiles, List.mem_filter]

/-! ## Binding-map overwrite semantics (C6) -/

/-- Folding assignments into the association-list map records them most
recent first. -/
theorem foldl_assign_eq_reverse_append {α : Type} (l acc : List α) :
    List.foldl (fun m kv => kv :: m) acc l = l.reverse ++ acc := by
  induction l generalizing acc with
  | nil => simp
  | cons x xs ih => simp [List.foldl_cons, ih]

/-- Structure of the finished binding map: all assignments of both
passes (default pass first, grouped pass second), most recent first. -/
theorem extractImportStatements_eq_passes (content : String) :
    extractImportStatements content =
      (defaultBindingList content.toList ++ namedBindingList content.toList).reverse := by
  simp [extractImportStatements, foldl_assign_eq_reverse_append, List.reverse_append]

theorem find?_append_of_some {α : Type} {p : α → Bool} {l₁ : List α} (l₂ : List α) {x : α}
    (h : l₁.find? p = some x) : (l₁ ++ l₂).find? p = some x := by
  induction l₁ with
  | nil => simp [List.find?] at h
  | cons a rest ih =>
    by_cases ha : p a
    · simp_all [List.find?_cons_of_pos]
    · rw [List.find?_cons_of_neg _ (by simp [ha])] at h
      rw [show a :: rest ++ l₂ = a :: (rest ++ l₂) from rfl,
        List.find?_cons_of_neg _ (by simp [ha])]
      exact ih h

/-- C6: overwrite semantics, not merge: for every key the finished map
holds the statement of the last match processed, where the default-style
pass runs first and the grouped-style pass second; in particular a name
bound by both passes maps to the grouped-style statement even when the
grouped statement appears first in the text. -/
theorem binding_last_match_wins :
    (∀ (content k : String),
      bindingLookup (extractImportStatements content) k =
        ((defaultBindingList content.toList ++ namedBindingList content.toList).reverse.find?
          (fun p => p.1 = k)).map (fun p => p.2)) ∧
    (∀ (content k : String) (v : String),
      bindingLookup ((namedBindingList content.toList).reverse) k = some v →
      bindingLookup (extractImportStatements content) k = some v) ∧
    bindingLookup (extractImportStatements bothPassesContent) "Foo" =
      some "import \x7b Foo \x7d from \"a\";" := by
  refine ⟨?_, ?_, by decide⟩
  · intro content k
    rw [bindingLookup, extractImportStatements_eq_passes]
  · intro content k v h
    rw [bindingLookup, extractImportStatements_eq_passes, List.reverse_append]
    rw [bindingLookup] at h
    obtain ⟨p, hp, hv⟩ := Option.map_eq_some'.mp h
    rw [find?_append_of_some _ hp]
    simpa using hv

/-! ## Equivalence of the two source copies (C8) -/

theorem pushInstance_erase (r : List (String × List ComponentInstance)) (k : String)
    (v : ComponentInstance) :
    pushInstance (eraseDecorations r) k (eraseImportField v) =
      eraseDecorations (pushInstance r k v) := by
  induction r with
  | nil => simp [pushInstance, eraseDecorations]
  | cons p rest ih =>
    obtain ⟨k', vs⟩ := p
    by_cases h : k' = k
    · simp [pushInstance, eraseDecorations, h]
    · simp [pushInstance, eraseDecorations, h]
      simpa [eraseDecorations] using ih

theorem lineInstances2_erase (im : List (String × String)) (i : Nat) (line : List Char)
    (r : List (String × List ComponentInstance)) :
    lineInstances2 i line (eraseDecorations r) =
      eraseDecorations (lineInstances im i line r) := by
  unfold lineInstances lineInstances2
  generalize scanTags line = names
  induction names generalizing r with
  | nil => rfl
  | cons n ns ih =>
    rw [List.foldl_cons, List.foldl_cons]
    rw [show (⟨i + 1, String.mk (jsTrim line)⟩ : ComponentInstance2) =
      eraseImportField ⟨i + 1, String.mk (jsTrim line), bindingLookup im n⟩ from rfl]
    rw [pushInstance_erase]
    exact ih _

theorem scanLinesAux2_erase (im : List (String × String)) (lines : List (List Char))
    (i : Nat) (r : List (String × List ComponentInstance)) :
    scanLinesAux2 i lines (eraseDecorations r) =
      eraseDecorations (scanLinesAux im i lines r) := by
  induction lines generalizing i r with
  | nil => rfl
  | cons line rest ih =>
    rw [scanLinesAux, scanLinesAux2, lineInstances2_erase im, ih]

/-- C8: on every input the simpler second copy of
`extractReactComponentInstances` computes exactly the canonical first
copy with the `importStatement` field erased from every record: same
component names in the same order, and for each name the same sequence
of line numbers and trimmed line texts. -/
theorem second_copy_is_erasure (content : String) :
    extractReactComponentInstances2 content =
      eraseDecorations (extractReactComponentInstances content) := by
  unfold extractReactComponentInstances extractReactComponentInstances2
  rw [show ([] : List (String × List ComponentInstance2)) =
    eraseDecorations [] from rfl, scanLinesAux2_erase]

/-! ## Origin-statement decoration (C5) -/

/-- Every successful default-import match text begins with the letter
of `import`. -/
theorem matchDefault_text_head {l a text rest : List Char}
    (h : matchDefaultImportAt l = some (a, text, rest)) : ∃ t, text = 'i' :: t := by
  simp only [matchDefaultImportAt, importKw] at h
  repeat' split at h
  all_goals first
    | exact absurd h (fun hx => Option.noConfusion hx)
    | (simp only [Option.some.injEq, Prod.mk.injEq] at h; exact ⟨_, h.2.1.symm⟩)

/-- Every successful grouped-import match text begins with the letter
of `import`. -/
theorem matchNamed_text_head {l a text rest : List Char}
    (h : matchNamedImportAt l = some (a, text, rest)) : ∃ t, text = 'i' :: t := by
  simp only [matchNamedImportAt, importKw] at h
  repeat' split at h
  all_goals first
    | exact absurd h (fun hx => Option.noConfusion hx)
    | (simp only [Option.some.injEq, Prod.mk.injEq] at h; exact ⟨_, h.2.1.symm⟩)

/-- A property of match texts established by the matcher holds of every
text the driver records. -/
theorem execLoopF_text_shape {α : Type} (matchAt : List Char → Option (α × List Char × List Char))
    (P : List Char → Prop)
    (hm : ∀ l a text rest, matchAt l = some (a, text, rest) → P text) :
    ∀ (fuel : Nat) (l : List Char) (a : α) (text : List Char),
      (a, text) ∈ execLoopF matchAt fuel l → P text := by
  intro fuel
  induction fuel with
  | zero => intro l a text h; simp [execLoopF] at h
  | succ fuel ih =>
    intro l a text h
    match l with
    | [] => simp [execLoopF] at h
    | c :: rest =>
      rw [execLoopF] at h
      cases hm' : matchAt (c :: rest) with
      | none => rw [hm'] at h; exact ih _ _ _ h
      | some r =>
        obtain ⟨a0, t0, rem⟩ := r
        rw [hm'] at h
        rcases List.mem_cons.mp h with h1 | h2
        · have := Prod.mk.injEq .. ▸ h1
          simp only [Prod.mk.injEq] at h1
          exact h1.2 ▸ hm _ _ _ _ hm'
        · exact ih _ _ _ h2

/-- No value stored in the binding map is the empty string: every bound
statement text is a full regex match, which starts with `import`. -/
theorem binding_value_nonempty (content : String) (k v : String)
    (h : bindingLookup (extractImportStatements content) k = some v) : v ≠ "" := by
  rw [extractImportStatements_eq_passes, bindingLookup] at h
  obtain ⟨p, hp, hv⟩ := Option.map_eq_some'.mp h
  have hmem := List.mem_of_find?_eq_some hp
  rw [List.mem_reverse] at hmem
  subst hv
  rcases List.mem_append.mp hmem with hd | hn
  · obtain ⟨q, hq, hpq⟩ := List.mem_map.mp hd
    obtain ⟨s, hs⟩ := execLoopF_text_shape matchDefaultImportAt (fun t => ∃ s, t = 'i' :: s)
      (fun _ _ _ _ hh => matchDefault_text_head hh) _ _ q.1 q.2 hq
    rw [← hpq]
    simp [hs, String.ext_iff]
  · obtain ⟨q, hq, hmem2⟩ := List.mem_flatMap.mp hn
    obtain ⟨raw, _, hpq⟩ := List.mem_map.mp hmem2
    obtain ⟨s, hs⟩ := execLoopF_text_shape matchNamedImportAt (fun t => ∃ s, t = 'i' :: s)
      (fun _ _ _ _ hh => matchNamed_text_head hh) _ _ q.1 q.2 hq
    rw [← hpq]
    simp [hs, String.ext_iff]

/-- Lookup in a pushed result: the pushed value lands at the end of its
key's group, other groups are untouched. -/
theorem instancesOf_pushInstance {α : Type} (r : List (String × List α)) (k k' : String)
    (v : α) :
    instancesOf (pushInstance r k v) k' =
      if k' = k then instancesOf r k' ++ [v] else instancesOf r k' := by
  induction r with
  | nil =>
    by_cases h : k' = k
    · subst h; simp [pushInstance, instancesOf]
    · simp [pushInstance, instancesOf, h, Ne.symm h]
  | cons p rest ih =>
    obtain ⟨k0, vs⟩ := p
    by_cases h0 : k0 = k
    · subst h0
      by_cases h1 : k0 = k'
      · subst h1; simp [pushInstance, instancesOf]
      · simp [pushInstance, instancesOf, h1, Ne.symm h1]
    · by_cases h1 : k0 = k'
      · subst h1
        simp [pushInstance, instancesOf, h0, Ne.symm h0]
      · simp [pushInstance, instancesOf, h0, h1, ih]

/-- Invariant preservation through one line of the first copy: every
recorded instance's `importStatement` is the import-map lookup for the
group key. -/
theorem lineInstances_inv (im : List (String × String)) (i : Nat) (line : List Char)
    (r : List (String × List ComponentInstance))
    (hr : ∀ k inst, inst ∈ instancesOf r k → inst.importStatement = bindingLookup im k) :
    ∀ k inst, inst ∈ instancesOf (lineInstances im i line r) k →
      inst.importStatement = bindingLookup im k := by
  unfold lineInstances
  generalize scanTags line = names
  induction names generalizing r with
  | nil => exact hr
  | cons n ns ih =>
    rw [List.foldl_cons]
    apply ih
    intro k inst h
    rw [instancesOf_pushInstance] at h
    by_cases hk : k = n
    · subst hk
      rw [if_pos rfl] at h
      rcases List.mem_append.mp h with h1 | h2
      · exact hr _ _ h1
      · simp only [List.mem_singleton] at h2; subst h2; rfl
    · rw [if_neg hk] at h; exact hr _ _ h

/-- Invariant preservation through the whole line loop. -/
theorem scanLinesAux_inv (im : List (String × String)) (lines : List (List Char)) :
    ∀ (i : Nat) (r : List (String × List ComponentInstance)),
      (∀ k inst, inst ∈ instancesOf r k → inst.importStatement = bindingLookup im k) →
      ∀ k inst, inst ∈ instancesOf (scanLinesAux im i lines r) k →
        inst.importStatement = bindingLookup im k := by
  induction lines with
  | nil => intro i r hr; exact hr
  | cons line rest ih =>
    intro i r hr
    exact ih (i + 1) _ (lineInstances_inv im i line r hr)

/-- C5: a Usage's `importStatement` field is exactly the binding-map
lookup of the Usage's name: populated with the bound statement when the
map holds the key, absent otherwise, and never the empty string. -/
theorem originStatement_iff_binding (content name : String) (inst : ComponentInstance)
    (h : inst ∈ instancesOf (extractReactComponentInstances content) name) :
    inst.importStatement = bindingLookup (extractImportStatements content) name ∧
      inst.importStatement ≠ some "" := by
  have h1 : inst.importStatement = bindingLookup (extractImportStatements content) name := by
    refine scanLinesAux_inv _ _ 0 [] ?_ name inst h
    intro k inst h'
    simp [instancesOf] at h'
  refine ⟨h1, ?_⟩
  rw [h1]
  intro hc
  exact binding_value_nonempty content name "" hc rfl

/-- Witness for C5 at the repository's JSX test content: the Usage of
`StrictMode` on line 5 carries the grouped import statement that bound
it. -/
theorem originStatement_iff_binding_witness :
    ((⟨5, "<StrictMode>", some "import \x7b StrictMode \x7d from \"react\";"⟩ : ComponentInstance) ∈
      instancesOf (extractReactComponentInstances mainTestContent) "StrictMode") ∧
    ((⟨5, "<StrictMode>", some "import \x7b StrictMode \x7d from \"react\";"⟩ :
        ComponentInstance).importStatement =
      bindingLookup (extractImportStatements mainTestContent) "StrictMode" ∧
      (⟨5, "<StrictMode>", some "import \x7b StrictMode \x7d from \"react\";"⟩ :
        ComponentInstance).importStatement ≠ some "") :=
  ⟨by decide, originStatement_iff_binding mainTestContent "StrictMode" _ (by decide)⟩

/-! ## Permissive tag matching (C1) -/

theorem takeWhile_append_stop {α : Type} {p : α → Bool} {b : α} (hb : p b = false)
    (xs ys : List α) : (xs ++ b :: ys).takeWhile p = xs.takeWhile p := by
  induction xs with
  | nil => simp [List.takeWhile_cons, hb]
  | cons x xs ih =>
    by_cases hx : p x
    · simp [List.takeWhile_cons, hx, ih]
    · simp [List.takeWhile_cons, hx]

theorem dropWhile_append_stop {α : Type} {p : α → Bool} {b : α} (hb : p b = false)
    (xs ys : List α) : (xs ++ b :: ys).dropWhile p = xs.dropWhile p ++ b :: ys := by
  induction xs with
  | nil => simp [List.dropWhile_cons, hb]
  | cons x xs ih =>
    by_cases hx : p x
    · simp [List.dropWhile_cons, hx, ih]
    · simp [List.dropWhile_cons, hx]

theorem isWordChar_of_upper {c : Char} (h : isUpperAscii c = true) : isWordChar c = true := by
  simp [isWordChar, h]

theorem dropWhile_length_le {α : Type} (p : α → Bool) (l : List α) :
    (l.dropWhile p).length ≤ l.length := by
  induction l with
  | nil => simp
  | cons x xs ih =>
    by_cases h : p x
    · simp only [List.dropWhile_cons_of_pos h, List.length_cons]
      omega
    · simp [List.dropWhile_cons_of_neg h]

/-- Completeness of the per-line tag scan: every position where an
opening angle bracket is immediately followed by an uppercase letter
yields a match whose name is that letter followed by the maximal word
run, whatever precedes the bracket. -/
theorem scanTagsF_complete :
    ∀ (fuel : Nat) (l pre post : List Char) (c : Char),
      isUpperAscii c = true → l = pre ++ '<' :: c :: post → l.length < fuel →
      String.mk (c :: post.takeWhile isWordChar) ∈ scanTagsF fuel l := by
  intro fuel
  induction fuel with
  | zero =>
    intro l pre post c _ _ hlen
    omega
  | succ fuel ih =>
    intro l pre post c hc hl hlen
    subst hl
    cases pre with
    | nil =>
      simp only [List.nil_append, List.length_cons] at hlen ⊢
      simp only [scanTagsF, if_true, hc]
      exact List.mem_cons_self _ _
    | cons p0 pre' =>
      simp only [List.cons_append, List.length_cons] at hlen ⊢
      by_cases hp : p0 = '<'
      · subst hp
        cases pre' with
        | nil =>
          simp only [List.nil_append] at hlen ⊢
          simp only [scanTagsF, if_true]
          rw [if_neg (show ¬ isUpperAscii '<' = true by decide)]
          exact ih _ [] post c hc rfl (by simp at hlen ⊢; omega)
        | cons d pre'' =>
          simp only [List.cons_append, List.length_cons] at hlen ⊢
          simp only [scanTagsF, if_true]
          by_cases hd : isUpperAscii d = true
          · rw [if_pos hd]
            refine List.mem_cons_of_mem _ ?_
            rw [dropWhile_append_stop (show isWordChar '<' = false by decide) pre'' (c :: post)]
            refine ih _ (pre''.dropWhile isWordChar) post c hc rfl ?_
            have h1 := dropWhile_length_le isWordChar pre''
            simp only [List.length_append, List.length_cons] at hlen ⊢
            omega
          · rw [if_neg hd]
            exact ih _ (d :: pre'') post c hc rfl (by simp at hlen ⊢; omega)
      · simp only [scanTagsF, if_neg hp]
        exact ih _ pre' post c hc rfl (by simp at hlen ⊢; omega)

theorem mem_instancesOf_pushInstance_self {α : Type} (r : List (String × List α))
    (k : String) (v : α) : v ∈ instancesOf (pushInstance r k v) k := by
  rw [instancesOf_pushInstance, if_pos rfl]
  simp

theorem mem_instancesOf_pushInstance_mono {α : Type} (r : List (String × List α))
    (k k' : String) (v w : α) (h : w ∈ instancesOf r k') :
    w ∈ instancesOf (pushInstance r k v) k' := by
  rw [instancesOf_pushInstance]
  split
  · exact List.mem_append_left _ h
  · exact h

theorem foldl_push_mono (im : List (String × String)) (i : Nat) (line : List Char)
    (names : List String) :
    ∀ (r : List (String × List ComponentInstance)) (k : String) (w : ComponentInstance),
      w ∈ instancesOf r k →
      w ∈ instancesOf (List.foldl (fun r n => pushInstance r n
        ⟨i + 1, String.mk (jsTrim line), bindingLookup im n⟩) r names) k := by
  induction names with
  | nil => exact fun _ _ _ h => h
  | cons n ns ih =>
    intro r k w h
    rw [List.foldl_cons]
    exact ih _ _ _ (mem_instancesOf_pushInstance_mono _ _ _ _ _ h)

theorem foldl_push_adds (im : List (String × String)) (i : Nat) (line : List Char)
    (names : List String) (name : String) (hname : name ∈ names) :
    ∀ r, (⟨i + 1, String.mk (jsTrim line), bindingLookup im name⟩ : ComponentInstance) ∈
      instancesOf (List.foldl (fun r n => pushInstance r n
        ⟨i + 1, String.mk (jsTrim line), bindingLookup im n⟩) r names) name := by
  induction names with
  | nil => simp at hname
  | cons n ns ih =>
    intro r
    rw [List.foldl_cons]
    by_cases h : name ∈ ns
    · exact ih h _
    · have hn : name = n := by
        rcases List.mem_cons.mp hname with h1 | h2
        · exact h1
        · exact absurd h2 h
      subst hn
      exact foldl_push_mono im i line ns _ _ _ (mem_instancesOf_pushInstance_self _ _ _)

theorem lineInstances_mono (im : List (String × String)) (i : Nat) (line : List Char)
    (r : List (String × List ComponentInstance)) (k : String) (w : ComponentInstance)
    (h : w ∈ instancesOf r k) : w ∈ instancesOf (lineInstances im i line r) k :=
  foldl_push_mono im i line (scanTags line) r k w h

theorem scanLinesAux_mono (im : List (String × String)) (lines : List (List Char)) :
    ∀ (i : Nat) (r : List (String × List ComponentInstance)) (k : String)
      (w : ComponentInstance), w ∈ instancesOf r k →
      w ∈ instancesOf (scanLinesAux im i lines r) k := by
  induction lines with
  | nil => exact fun _ _ _ _ h => h
  | cons l0 rest ih =>
    intro i r k w h
    rw [scanLinesAux]
    exact ih _ _ _ _ (lineInstances_mono im i l0 r k w h)

theorem scanLinesAux_adds (im : List (String × String)) (lines : List (List Char)) :
    ∀ (i j : Nat) (line : List Char) (r : List (String × List ComponentInstance))
      (name : String), lines.get? j = some line → name ∈ scanTags line →
      (⟨i + j + 1, String.mk (jsTrim line), bindingLookup im name⟩ : ComponentInstance) ∈
        instancesOf (scanLinesAux im i lines r) name := by
  induction lines with
  | nil =>
    intro i j line r name hget
    simp at hget
  | cons l0 rest ih =>
    intro i j line r name hget hname
    cases j with
    | zero =>
      simp only [List.get?_cons_zero, Option.some.injEq] at hget
      subst hget
      rw [scanLinesAux]
      exact scanLinesAux_mono im rest (i + 1) _ _ _
        (foldl_push_adds im i _ (scanTags _) name hname r)
    | succ j' =>
      simp only [List.get?_cons_succ] at hget
      rw [scanLinesAux]
      have := ih (i + 1) j' line (lineInstances im i l0 r) name hget hname
      have e : i + 1 + j' + 1 = i + (j' + 1) + 1 := by omega
      rw [e] at this
      exact this

/-- C1: the permissive tag rule is in force: at every position of every
line where an opening angle bracket is immediately followed by an
uppercase ASCII letter, a Usage is recorded under the name formed by
that letter and the maximal following run of word characters, with the
1-indexed line number — even when the bracket is directly preceded by an
identifier character, as in generic-type syntax. -/
theorem permissive_tag_matching (content : String) (i : Nat) (line pre post : List Char)
    (c : Char) (hget : (splitOnChar '\n' content.toList).get? i = some line)
    (hdecomp : line = pre ++ '<' :: c :: post) (hupper : isUpperAscii c = true) :
    (⟨i + 1, String.mk (jsTrim line),
        bindingLookup (extractImportStatements content)
          (String.mk (c :: post.takeWhile isWordChar))⟩ : ComponentInstance) ∈
      instancesOf (extractReactComponentInstances content)
        (String.mk (c :: post.takeWhile isWordChar)) := by
  have hscan : String.mk (c :: post.takeWhile isWordChar) ∈ scanTags line :=
    scanTagsF_complete _ line pre post c hupper hdecomp (by omega)
  unfold extractReactComponentInstances
  have h := scanLinesAux_adds (extractImportStatements content)
    (splitOnChar '\n' content.toList) 0 i line [] _ hget hscan
  simpa using h

/-- Witness for C1: the generic-type test content contains the line
`type MyType = Promise<Character>;`, whose bracket is preceded by the
identifier character `e`, and a Usage named `Character` is recorded for
line 4. -/
theorem permissive_tag_matching_witness :
    (⟨4, "type MyType = Promise<Character>;",
        bindingLookup (extractImportStatements genericTestContent) "Character"⟩ :
      ComponentInstance) ∈
      instancesOf (extractReactComponentInstances genericTestContent) "Character" := by
  have h := permissive_tag_matching genericTestContent 3
    ("type MyType = Promise<Character>;".toList)
    ("type MyType = Promise".toList) ("haracter>;".toList) 'C'
    (by decide) (by decide) (by decide)
  exact h

/-! ## Literal matching for wildcard-free patterns (C7) -/

theorem isPrefixOf_cons_cons (a b : Char) (x y : List Char) :
    ((a :: x).isPrefixOf (b :: y)) = (a == b && x.isPrefixOf y) := rfl

theorem mem_escapeRegexChars {c : Char} {l : List Char}
    (h : c ∈ escapeRegexChars l) : c = '\\' ∨ c ∈ l := by
  induction l with
  | nil => simp [escapeRegexChars] at h
  | cons d t ih =>
    by_cases hd : metaChars.contains d
    · rw [escapeRegexChars, if_pos hd] at h
      simp only [List.mem_cons] at h
      rcases h with h | h | h
      · left; exact h
      · right; simp [h]
      · rcases ih h with h1 | h1
        · left; exact h1
        · right; exact List.mem_cons_of_mem _ h1
    · rw [escapeRegexChars, if_neg hd] at h
      simp only [List.mem_cons] at h
      rcases h with h | h
      · right; simp [h]
      · rcases ih h with h1 | h1
        · left; exact h1
        · right; exact List.mem_cons_of_mem _ h1

theorem isPrefixOf_cons_ne {c d : Char} (h : ¬c = d) (x y : List Char) :
    (c :: x).isPrefixOf (d :: y) = false := by
  simp [List.isPrefixOf, h]

theorem mem_of_prefixOf_head {h : Char} {t l : List Char}
    (hp : (h :: t).isPrefixOf l = true) : h ∈ l := by
  cases l with
  | nil => simp [List.isPrefixOf] at hp
  | cons d r =>
    by_cases hd : h = d
    · subst hd; exact List.mem_cons_self _ _
    · rw [isPrefixOf_cons_ne hd] at hp
      exact absurd hp (by simp)

theorem occursIn_false_of_head_not_mem {h : Char} {t : List Char} (l : List Char)
    (hm : h ∉ l) : occursIn (h :: t) l = false := by
  induction l with
  | nil => simp [occursIn, List.isPrefixOf]
  | cons c r ih =>
    have hhc : ¬h = c := fun he => hm (he ▸ List.mem_cons_self _ _)
    rw [occursIn, isPrefixOf_cons_ne hhc]
    simp only [Bool.false_or]
    exact ih (fun hr => hm (List.mem_cons_of_mem _ hr))

theorem replaceAllF_id_of_no_occurrence (pat rep : List Char) (l : List Char)
    (h : occursIn pat l = false) : ∀ fuel, replaceAllF pat rep fuel l = l := by
  induction l with
  | nil => intro fuel; cases fuel <;> rfl
  | cons c rest ih =>
    intro fuel
    rw [occursIn] at h
    simp only [Bool.or_eq_false_iff] at h
    cases fuel with
    | zero => rfl
    | succ fuel' =>
      rw [replaceAllF, if_neg (by simp [h.1])]
      rw [ih h.2 fuel']

theorem replaceAll_id_of_no_occurrence (pat rep : List Char) (l : List Char)
    (h : occursIn pat l = false) : replaceAll pat rep l = l :=
  replaceAllF_id_of_no_occurrence pat rep l h _

/-- A pattern of non-metacharacters that prefixes the escaped text
already prefixes the unescaped text. -/
theorem prefixOf_escape {pat : List Char} (hpat : ∀ c ∈ pat, metaChars.contains c = false) :
    ∀ l : List Char, pat.isPrefixOf (escapeRegexChars l) = true → pat.isPrefixOf l = true := by
  induction pat with
  | nil => intro l _; simp [List.isPrefixOf]
  | cons p ps ih =>
    intro l hp
    cases l with
    | nil => simp [escapeRegexChars, List.isPrefixOf] at hp
    | cons c t =>
      have hpnotbs : ¬p = '\\' := by
        intro he
        have := hpat p (List.mem_cons_self _ _)
        rw [he] at this
        simp [metaChars] at this
      by_cases hc : metaChars.contains c
      · rw [escapeRegexChars, if_pos hc, isPrefixOf_cons_ne hpnotbs] at hp
        exact absurd hp (by simp)
      · rw [escapeRegexChars, if_neg hc] at hp
        simp only [isPrefixOf_cons_cons, Bool.and_eq_true] at hp ⊢
        exact ⟨hp.1, ih (fun d hd => hpat d (List.mem_cons_of_mem _ hd)) t hp.2⟩

/-- Escaping cannot create an occurrence of a non-metacharacter
pattern. -/
theorem occursIn_escape {pat : List Char} (hpat : ∀ c ∈ pat, metaChars.contains c = false)
    (l : List Char) (h : occursIn pat (escapeRegexChars l) = true) :
    occursIn pat l = true := by
  induction l with
  | nil => simpa [escapeRegexChars] using h
  | cons c t ih =>
    cases pat with
    | nil => simp [occursIn, List.isPrefixOf]
    | cons p ps =>
      have hpnotbs : ¬p = '\\' := by
        intro he
        have := hpat p (List.mem_cons_self _ _)
        rw [he] at this
        simp [metaChars] at this
      by_cases hc : metaChars.contains c
      · rw [escapeRegexChars, if_pos hc] at h
        rw [occursIn, isPrefixOf_cons_ne hpnotbs, Bool.false_or] at h
        rw [occursIn] at h
        rcases Bool.or_eq_true_iff.mp h with h1 | h1
        · by_cases hpc : p = c
          · subst hpc
            simp only [isPrefixOf_cons_cons] at h1
            have := prefixOf_escape (fun d hd => hpat d (List.mem_cons_of_mem _ hd)) t
              (by simpa using h1)
            rw [occursIn]
            simp only [isPrefixOf_cons_cons]
            simp [this]
          · rw [isPrefixOf_cons_ne hpc] at h1
            exact absurd h1 (by simp)
        · rw [occursIn, ih h1]
          simp
      · rw [escapeRegexChars, if_neg hc] at h
        rw [occursIn] at h
        rcases Bool.or_eq_true_iff.mp h with h1 | h1
        · by_cases hpc : p = c
          · subst hpc
            simp only [isPrefixOf_cons_cons] at h1
            have := prefixOf_escape (fun d hd => hpat d (List.mem_cons_of_mem _ hd)) t
              (by simpa using h1)
            rw [occursIn]
            simp only [isPrefixOf_cons_cons]
            simp [this]
          · rw [isPrefixOf_cons_ne hpc] at h1
            exact absurd h1 (by simp)
        · rw [occursIn, ih h1]
          simp

theorem escape_length_ge (l : List Char) : l.length ≤ (escapeRegexChars l).length := by
  induction l with
  | nil => simp [escapeRegexChars]
  | cons c t ih =>
    by_cases h : metaChars.contains c
    · simp only [escapeRegexChars, if_pos h, List.length_cons]
      omega
    · simp only [escapeRegexChars, if_neg h, List.length_cons]
      omega

/-- Parsing the escape of a star-free, question-mark-free pattern yields
one unquantified literal piece per pattern character. -/
theorem parsePiecesF_escape :
    ∀ (l : List Char) (fuel : Nat), (∀ c ∈ l, ¬c = '*' ∧ ¬c = '?') → l.length < fuel →
      parsePiecesF fuel (escapeRegexChars l) =
        some (l.map (fun c => RPiece.once (RAtom.lit c))) := by
  intro l
  induction l with
  | nil =>
    intro fuel _ hf
    cases fuel with
    | zero => omega
    | succ f => rfl
  | cons c t ih =>
    intro fuel hc hf
    cases fuel with
    | zero => omega
    | succ f =>
      have hcc := hc c (List.mem_cons_self _ _)
      have hct : ∀ d ∈ t, ¬d = '*' ∧ ¬d = '?' :=
        fun d hd => hc d (List.mem_cons_of_mem _ hd)
      have hstart : '*' ∉ escapeRegexChars t := by
        intro hm
        rcases mem_escapeRegexChars hm with h | h
        · exact absurd h (by decide)
        · exact (hct _ h).1 rfl
      have hqt : '?' ∉ escapeRegexChars t := by
        intro hm
        rcases mem_escapeRegexChars hm with h | h
        · exact absurd h (by decide)
        · exact (hct _ h).2 rfl
      have htl : t.length < f := by
        simp only [List.length_cons] at hf
        omega
      by_cases hm : metaChars.contains c
      · rw [escapeRegexChars, if_pos hm]
        have hpa : parseAtom ('\\' :: c :: escapeRegexChars t) =
            some (.lit c, escapeRegexChars t) := by
          simp [parseAtom]
        simp only [parsePiecesF, hpa]
        split
        · exact absurd (by rename_i heq; rw [heq]; exact List.mem_cons_self _ _) hstart
        · exact absurd (by rename_i heq; rw [heq]; exact List.mem_cons_self _ _) hqt
        · rw [ih f hct htl]
          simp
      · rw [escapeRegexChars, if_neg hm]
        have hbs : ¬c = '\\' := by
          intro he
          rw [he] at hm
          exact hm (by decide)
        have hbr : ¬c = '[' := by
          intro he
          rw [he] at hm
          exact hm (by decide)
        have hdot : ¬c = '.' := by
          intro he
          rw [he] at hm
          exact hm (by decide)
        have hpa : parseAtom (c :: escapeRegexChars t) = some (.lit c, escapeRegexChars t) := by
          simp only [parseAtom]
          rw [if_neg hbs, if_neg hbr, if_neg hdot, if_neg hcc.1, if_neg hcc.2]
        simp only [parsePiecesF, hpa]
        split
        · exact absurd (by rename_i heq; rw [heq]; exact List.mem_cons_self _ _) hstart
        · exact absurd (by rename_i heq; rw [heq]; exact List.mem_cons_self _ _) hqt
        · rw [ih f hct htl]
          simp

/-- Matching a sequence of literal pieces is equality with the literal
text. -/
theorem matchPiecesF_lits :
    ∀ (l s : List Char) (fuel : Nat), l.length + s.length < fuel →
      (matchPiecesF fuel (l.map (fun c => RPiece.once (RAtom.lit c))) s = true ↔ s = l) := by
  intro l
  induction l with
  | nil =>
    intro s fuel hf
    cases fuel with
    | zero => omega
    | succ f => simp [matchPiecesF, List.isEmpty_eq_true]
  | cons c t ih =>
    intro s fuel hf
    cases fuel with
    | zero => omega
    | succ f =>
      cases s with
      | nil => simp [matchPiecesF]
      | cons d s' =>
        simp only [List.map_cons, matchPiecesF, Bool.and_eq_true]
        have hih := ih s' f (by simp only [List.length_cons] at hf ⊢; omega)
        simp [atomMatch, hih, List.cons.injEq]

/-- Core of the amended C7, at the character-list level: for a pattern
with no star, no question mark, and no `__DS__` occurrence, the compiled
regex accepts exactly the pattern itself. -/
theorem regexTest_literal (p pat : List Char)
    (hstar : ∀ c ∈ pat, ¬c = '*' ∧ ¬c = '?')
    (hds : occursIn dsPlaceholder pat = false) :
    (regexTest (globToRegex pat) p = true ↔ p = pat) := by
  have hstarmem : '*' ∉ pat := fun hm => (hstar _ hm).1 rfl
  have h1 : (['*', '*', '/'].isPrefixOf pat) = false := by
    cases hpp : (['*', '*', '/'].isPrefixOf pat)
    · rfl
    · exact absurd (mem_of_prefixOf_head hpp) hstarmem
  have h2 : occursIn ['*', '*'] pat = false :=
    occursIn_false_of_head_not_mem _ hstarmem
  have h3 : '*' ∉ escapeRegexChars pat := by
    intro hm
    rcases mem_escapeRegexChars hm with h | h
    · exact absurd h (by decide)
    · exact hstarmem h
  have h4 : occursIn ['*'] (escapeRegexChars pat) = false :=
    occursIn_false_of_head_not_mem _ h3
  have h5 : occursIn dsPlaceholder (escapeRegexChars pat) = false := by
    cases hpp : occursIn dsPlaceholder (escapeRegexChars pat)
    · rfl
    · exact absurd (occursIn_escape (by decide) _ hpp) (by simp [hds])
  have hregex : globToRegex pat = '^' :: (escapeRegexChars pat ++ ['$']) := by
    simp only [globToRegex, h1, Bool.false_eq_true, if_false]
    rw [replaceAll_id_of_no_occurrence _ _ _ h2,
      replaceAll_id_of_no_occurrence _ _ _ h4,
      replaceAll_id_of_no_occurrence _ _ _ h5]
    simp
  have hopt : optPrefixChars.isPrefixOf ('^' :: (escapeRegexChars pat ++ ['$'])) =
      false := by
    rw [show optPrefixChars = '^' :: ['(', '?', ':', '.', '*', '\\', '/', ')', '?'] from rfl]
    rw [isPrefixOf_cons_cons]
    simp only [beq_self_eq_true, Bool.true_and]
    cases hp : pat with
    | nil => simp [escapeRegexChars, List.isPrefixOf]
    | cons c t =>
      by_cases hm : metaChars.contains c
      · rw [escapeRegexChars, if_pos hm, List.cons_append,
          isPrefixOf_cons_ne (by decide)]
      · have hne : ¬('(' : Char) = c := by
          intro he
          rw [← he] at hm
          exact hm (by decide)
        rw [escapeRegexChars, if_neg hm, List.cons_append, isPrefixOf_cons_ne hne]
  rw [hregex, regexTest]
  rw [if_neg (by simp only [hopt]; exact Bool.false_ne_true)]
  rw [List.getLast?_concat, if_pos rfl, List.dropLast_concat]
  rw [parsePieces, parsePiecesF_escape pat _ hstar
    (by have := escape_length_ge pat; omega)]
  show matchPieces (pat.map fun c => RPiece.once (RAtom.lit c)) p = true ↔ p = pat
  rw [matchPieces, matchPiecesF_lits pat p _ (by simp only [List.length_map]; omega)]

/-- C7 (amended): for every pattern containing no star, no question
mark, and no occurrence of the placeholder text `__DS__`, all pattern
text is matched literally: the compiled matcher accepts exactly the path
equal to the pattern.  (The original claim fails: a pattern containing
the substring `__DS__` is interpreted as the unrestricted multi-segment
wildcard even though it contains no star.) -/
theorem wildcard_free_matches_literally (path pattern : String)
    (hstar : ∀ c ∈ pattern.toList, ¬c = '*' ∧ ¬c = '?')
    (hds : occursIn dsPlaceholder pattern.toList = false) :
    (matchWildcard path pattern = true ↔ path = pattern) := by
  rw [matchWildcard, regexTest_literal path.toList pattern.toList hstar hds]
  constructor
  · intro h
    exact String.ext h
  · intro h
    rw [h]

/-- Witness for C7 (amended): a star-free pattern containing the regex
metacharacters plus and dot matches itself and nothing else. -/
theorem wildcard_free_matches_literally_witness :
    matchWildcard "a+b.c" "a+b.c" = true ∧ matchWildcard "axb.c" "a+b.c" = false := by
  constructor
  · exact (wildcard_free_matches_literally "a+b.c" "a+b.c" (by decide) (by decide)).mpr rfl
  · cases hb : matchWildcard "axb.c" "a+b.c"
    · rfl
    · have h := (wildcard_free_matches_literally "axb.c" "a+b.c" (by decide) (by decide)).mp hb
      exact absurd h (by decide)

/-! ## Grouped-import bindings (C2) -/

theorem suffix_append_cases {s y : List Char} :
    ∀ x : List Char, s <:+ x ++ y →
      s <:+ y ∨ ∃ x', x' <:+ x ∧ x' ≠ [] ∧ s = x' ++ y := by
  intro x
  induction x with
  | nil =>
    intro h
    left
    simpa using h
  | cons c xs ih =>
    intro h
    rcases h with ⟨t, ht⟩
    cases t with
    | nil =>
      right
      exact ⟨c :: xs, List.suffix_refl _, by simp, by simpa using ht⟩
    | cons d t' =>
      have ht' : t' ++ s = xs ++ y := (by simpa using ht : _ ∧ _).2
      rcases ih ⟨t', ht'⟩ with h1 | ⟨x', hx1, hx2, hx3⟩
      · left
        exact h1
      · right
        exact ⟨x', hx1.trans (List.suffix_cons c xs), hx2, hx3⟩

theorem suffix_cons_cases {x' : List Char} {c : Char} {L : List Char}
    (h : x' <:+ c :: L) : x' = c :: L ∨ x' <:+ L := by
  rcases h with ⟨t, ht⟩
  cases t with
  | nil => left; simpa using ht
  | cons d t' => right; exact ⟨t', (by simpa using ht : _ ∧ _).2⟩

theorem mem_of_prefix_boundary {p : List Char} :
    ∀ {x : List Char} {c : Char} {y : List Char}, p.isPrefixOf (x ++ c :: y) = true →
      x.length < p.length → c ∈ p := by
  induction p with
  | nil =>
    intro x c y _ hl
    simp at hl
  | cons a p' ih =>
    intro x c y hp hl
    cases x with
    | nil =>
      simp only [List.nil_append, isPrefixOf_cons_cons, Bool.and_eq_true, beq_iff_eq] at hp
      rw [← hp.1]
      exact List.mem_cons_self _ _
    | cons b x' =>
      simp only [List.cons_append, isPrefixOf_cons_cons, Bool.and_eq_true] at hp
      simp only [List.length_cons] at hl
      exact List.mem_cons_of_mem _ (ih hp.2 (by omega))

theorem prefixOf_of_prefixOf_append {p : List Char} :
    ∀ {x rest : List Char}, p.isPrefixOf (x ++ rest) = true → p.length ≤ x.length →
      p.isPrefixOf x = true := by
  induction p with
  | nil =>
    intro x rest _ _
    cases x <;> rfl
  | cons a p' ih =>
    intro x rest hp hl
    cases x with
    | nil => simp at hl
    | cons b x' =>
      simp only [List.cons_append, isPrefixOf_cons_cons, Bool.and_eq_true] at hp ⊢
      simp only [List.length_cons] at hl
      exact ⟨hp.1, ih hp.2 (by omega)⟩

theorem consumeLit_none_of_noPrefixOf {lit l : List Char} (h : lit.isPrefixOf l = false) :
    consumeLit lit l = none := by
  simp [consumeLit, h]

theorem consumeLit_self (lit r : List Char) : consumeLit lit (lit ++ r) = some r := by
  have h : lit.isPrefixOf (lit ++ r) = true := by
    rw [List.isPrefixOf_iff_prefix]
    exact List.prefix_append lit r
  simp [consumeLit, h, List.drop_left]

theorem isIdentChar_not_space {c : Char} (h : isIdentChar c = true) : isJsSpace c = false := by
  simp only [isIdentChar, isWordChar, isUpperAscii, isLowerAscii, isDigitAscii,
    Bool.or_eq_true, Bool.and_eq_true, decide_eq_true_eq, beq_iff_eq] at h
  simp only [isJsSpace, Bool.or_eq_false_iff, Bool.and_eq_false_iff, beq_eq_false_iff_ne,
    ne_eq, decide_eq_false_iff_not, decide_eq_true_eq]
  omega

/-- The default matcher fails on input that does not start with
`import`. -/
theorem DM_fail_not_prefix {s : List Char} (h : importKw.isPrefixOf s = false) :
    matchDefaultImportAt s = none := by
  simp only [matchDefaultImportAt, consumeLit_none_of_noPrefixOf h]

/-- The default matcher fails on input whose head is not the letter of
`import`. -/
theorem DM_fail_head {c : Char} (r : List Char) (hc : ¬c = 'i') :
    matchDefaultImportAt (c :: r) = none := by
  apply DM_fail_not_prefix
  rw [show importKw = 'i' :: ['m', 'p', 'o', 'r', 't'] from rfl,
    isPrefixOf_cons_ne (fun he => hc he.symm)]

theorem DM_fail_nil : matchDefaultImportAt [] = none := by decide

/-- The default matcher fails when `import` is not followed by
whitespace. -/
theorem DM_fail_no_ws (r : List Char) (h : r.takeWhile isJsSpace = []) :
    matchDefaultImportAt (importKw ++ r) = none := by
  simp only [matchDefaultImportAt, consumeLit_self, h]
  simp

/-- The default matcher fails when `import`, whitespace, and then a
character that can start neither an identifier nor more whitespace
follow. -/
theorem DM_fail_space_nonident {d : Char} (r : List Char) (h1 : isIdentChar d = false)
    (h2 : isJsSpace d = false) :
    matchDefaultImportAt (importKw ++ (' ' :: d :: r)) = none := by
  simp only [matchDefaultImportAt, consumeLit_self]
  rw [List.takeWhile_cons_of_pos (by decide), List.takeWhile_cons_of_neg (by simp [h2])]
  rw [if_neg (by simp)]
  rw [List.dropWhile_cons_of_pos (by decide), List.dropWhile_cons_of_neg (by simp [h2])]
  rw [List.takeWhile_cons_of_neg (by simp [h1])]
  rw [if_pos rfl]

/-- The default matcher fails at the suffix starting with the `import`
inside `B as C` even though `as` parses as an identifier there: either
the following item text is not `from`, or the quote check fails at the
closing brace. -/
theorem DM_fail_import_as (C r : List Char) (hCne : C ≠ [])
    (hCid : ∀ c ∈ C, isIdentChar c = true) :
    matchDefaultImportAt
      (importKw ++ (' ' :: 'a' :: 's' :: ' ' :: (C ++ ' ' :: '}' :: r))) = none := by
  obtain ⟨c0, C', rfl⟩ : ∃ c0 C', C = c0 :: C' := by
    cases C with
    | nil => exact absurd rfl hCne
    | cons a b => exact ⟨a, b, rfl⟩
  have hc0 : isIdentChar c0 = true := hCid _ (List.mem_cons_self _ _)
  simp only [matchDefaultImportAt, consumeLit_self]
  rw [List.takeWhile_cons_of_pos (show isJsSpace ' ' = true by decide),
    List.takeWhile_cons_of_neg (show ¬isJsSpace 'a' = true by decide)]
  rw [if_neg (by simp)]
  rw [List.dropWhile_cons_of_pos (show isJsSpace ' ' = true by decide),
    List.dropWhile_cons_of_neg (show ¬isJsSpace 'a' = true by decide)]
  rw [List.takeWhile_cons_of_pos (show isIdentChar 'a' = true by decide),
    List.takeWhile_cons_of_pos (show isIdentChar 's' = true by decide),
    List.takeWhile_cons_of_neg (show ¬isIdentChar ' ' = true by decide)]
  rw [if_neg (by simp)]
  rw [List.dropWhile_cons_of_pos (show isIdentChar 'a' = true by decide),
    List.dropWhile_cons_of_pos (show isIdentChar 's' = true by decide),
    List.dropWhile_cons_of_neg (show ¬isIdentChar ' ' = true by decide)]
  rw [List.takeWhile_cons_of_pos (show isJsSpace ' ' = true by decide)]
  rw [List.cons_append, List.takeWhile_cons_of_neg (by simp [isIdentChar_not_space hc0])]
  rw [if_neg (by simp)]
  rw [List.dropWhile_cons_of_pos (show isJsSpace ' ' = true by decide)]
  rw [List.dropWhile_cons_of_neg (by simp [isIdentChar_not_space hc0])]
  by_cases hfp : fromKw.isPrefixOf (c0 :: C' ++ ' ' :: '}' :: r) = true
  · by_cases hlen : (c0 :: C').length < 4
    · have hmem := mem_of_prefix_boundary hfp (by simpa [fromKw] using hlen)
      exact absurd hmem (by decide)
    · push_neg at hlen
      have hpx : fromKw.isPrefixOf (c0 :: C') = true :=
        prefixOf_of_prefixOf_append hfp (by simpa [fromKw] using hlen)
      obtain ⟨C'', hC''⟩ := List.isPrefixOf_iff_prefix.mp hpx
      rw [← List.cons_append, ← hC'', List.append_assoc]
      simp only [consumeLit_self]
      cases C'' with
      | nil =>
        simp only [List.nil_append]
        rw [List.takeWhile_cons_of_pos (show isJsSpace ' ' = true by decide),
          List.takeWhile_cons_of_neg (show ¬isJsSpace '}' = true by decide)]
        rw [if_neg (by simp)]
        rw [List.dropWhile_cons_of_pos (show isJsSpace ' ' = true by decide),
          List.dropWhile_cons_of_neg (show ¬isJsSpace '}' = true by decide)]
        rfl
      | cons d C₃ =>
        have hd : isIdentChar d = true := by
          apply hCid
          rw [← hC'']
          exact List.mem_append_right _ (List.mem_cons_self _ _)
        rw [List.cons_append,
          List.takeWhile_cons_of_neg (by simp [isIdentChar_not_space hd])]
        rw [if_pos rfl]
  · rw [consumeLit_none_of_noPrefixOf (by rwa [Bool.not_eq_true] at hfp)]

/-- The default matcher fails at every suffix position inside a run of
non-whitespace characters followed by a boundary character outside
`import`, provided it also fails right after a full `import` at that
boundary. -/
theorem DM_fail_nonspace_segment (x' : List Char) (c0 : Char) (rest' : List Char)
    (hx : ∀ c ∈ x', isJsSpace c = false)
    (hc0 : c0 ∉ importKw)
    (h6 : matchDefaultImportAt (importKw ++ (c0 :: rest')) = none) :
    matchDefaultImportAt (x' ++ (c0 :: rest')) = none := by
  by_cases hp : importKw.isPrefixOf (x' ++ (c0 :: rest')) = true
  · by_cases hlen : x'.length < 6
    · exact absurd (mem_of_prefix_boundary hp (by simpa [importKw] using hlen)) hc0
    · push_neg at hlen
      have hpx : importKw.isPrefixOf x' = true :=
        prefixOf_of_prefixOf_append hp (by simpa [importKw] using hlen)
      obtain ⟨x'', hx''⟩ := List.isPrefixOf_iff_prefix.mp hpx
      rw [← hx'']
      cases x'' with
      | nil => simpa using h6
      | cons d x₃ =>
        have hd : isJsSpace d = false := by
          apply hx
          rw [← hx'']
          exact List.mem_append_right _ (List.mem_cons_self _ _)
        rw [List.append_assoc]
        apply DM_fail_no_ws
        rw [List.cons_append, List.takeWhile_cons_of_neg (by simp [hd])]
  · exact DM_fail_not_prefix (by rwa [Bool.not_eq_true] at hp)

/-- The default-import pass finds no match anywhere in a grouped-import
statement: every suffix of `groupedStmt` fails the default matcher. -/
theorem matchDefault_none_on_grouped (A B C m : List Char)
    (hAid : ∀ c ∈ A, isIdentChar c = true)
    (hBid : ∀ c ∈ B, isIdentChar c = true)
    (hCne : C ≠ []) (hCid : ∀ c ∈ C, isIdentChar c = true)
    (hmw : ∀ c ∈ m, isJsSpace c = false) :
    ∀ s, s <:+ groupedStmt A B C m → matchDefaultImportAt s = none := by
  intro s hs
  rw [groupedStmt] at hs
  rcases suffix_append_cases _ hs with hs1 | ⟨x', hx, hxne, rfl⟩
  · rcases suffix_append_cases _ hs1 with hs2 | ⟨a', ha, hane, rfl⟩
    · rcases suffix_append_cases _ hs2 with hs3 | ⟨y, hy, hyne, rfl⟩
      · rcases suffix_append_cases _ hs3 with hs4 | ⟨b', hb, hbne, rfl⟩
        · rcases suffix_append_cases _ hs4 with hs5 | ⟨y, hy, hyne, rfl⟩
          · rcases suffix_append_cases _ hs5 with hs6 | ⟨c', hc, hcne, rfl⟩
            · rcases suffix_append_cases _ hs6 with hs7 | ⟨y, hy, hyne, rfl⟩
              · rcases suffix_append_cases _ hs7 with hs8 | ⟨m', hm', hmne, rfl⟩
                · rcases suffix_cons_cases hs8 with rfl | hs9
                  · exact DM_fail_head _ (by decide)
                  rcases suffix_cons_cases hs9 with rfl | hs10
                  · exact DM_fail_head _ (by decide)
                  rw [List.suffix_nil] at hs10
                  subst hs10
                  exact DM_fail_nil
                · exact DM_fail_nonspace_segment m' '"' [';']
                    (fun c hc => hmw c (hm'.subset hc)) (by decide)
                    (DM_fail_no_ws _ (by rw [List.takeWhile_cons_of_neg (by decide)]))
              · rcases suffix_cons_cases hy with rfl | hy
                · exact DM_fail_head _ (by decide)
                rcases suffix_cons_cases hy with rfl | hy
                · exact DM_fail_head _ (by decide)
                rcases suffix_cons_cases hy with rfl | hy
                · exact DM_fail_head _ (by decide)
                rcases suffix_cons_cases hy with rfl | hy
                · exact DM_fail_head _ (by decide)
                rcases suffix_cons_cases hy with rfl | hy
                · exact DM_fail_head _ (by decide)
                rcases suffix_cons_cases hy with rfl | hy
                · exact DM_fail_head _ (by decide)
                rcases suffix_cons_cases hy with rfl | hy
                · exact DM_fail_head _ (by decide)
                rcases suffix_cons_cases hy with rfl | hy
                · exact DM_fail_head _ (by decide)
                rcases suffix_cons_cases hy with rfl | hy
                · exact DM_fail_head _ (by decide)
                rw [List.suffix_nil] at hy
                exact absurd hy hyne
            · exact DM_fail_nonspace_segment c' ' ' _
                (fun c hcc => isIdentChar_not_space (hCid c (hc.subset hcc))) (by decide)
                (DM_fail_space_nonident _ (by decide) (by decide))
          · rcases suffix_cons_cases hy with rfl | hy
            · exact DM_fail_head _ (by decide)
            rcases suffix_cons_cases hy with rfl | hy
            · exact DM_fail_head _ (by decide)
            rcases suffix_cons_cases hy with rfl | hy
            · exact DM_fail_head _ (by decide)
            rcases suffix_cons_cases hy with rfl | hy
            · exact DM_fail_head _ (by decide)
            rw [List.suffix_nil] at hy
            exact absurd hy hyne
        · exact DM_fail_nonspace_segment b' ' ' _
            (fun c hcc => isIdentChar_not_space (hBid c (hb.subset hcc))) (by decide)
            (DM_fail_import_as C _ hCne hCid)
      · rcases suffix_cons_cases hy with rfl | hy
        · exact DM_fail_head _ (by decide)
        rcases suffix_cons_cases hy with rfl | hy
        · exact DM_fail_head _ (by decide)
        rw [List.suffix_nil] at hy
        exact absurd hy hyne
    · exact DM_fail_nonspace_segment a' ',' _
        (fun c hcc => isIdentChar_not_space (hAid c (ha.subset hcc))) (by decide)
        (DM_fail_no_ws _ (by rw [List.takeWhile_cons_of_neg (by decide)]))
  · rcases suffix_cons_cases hx with rfl | hx
    · exact DM_fail_space_nonident _ (by decide) (by decide)
    rcases suffix_cons_cases hx with rfl | hx
    · exact DM_fail_head _ (by decide)
    rcases suffix_cons_cases hx with rfl | hx
    · exact DM_fail_head _ (by decide)
    rcases suffix_cons_cases hx with rfl | hx
    · exact DM_fail_head _ (by decide)
    rcases suffix_cons_cases hx with rfl | hx
    · exact DM_fail_head _ (by decide)
    rcases suffix_cons_cases hx with rfl | hx
    · exact DM_fail_head _ (by decide)
    rcases suffix_cons_cases hx with rfl | hx
    · exact DM_fail_head _ (by decide)
    rcases suffix_cons_cases hx with rfl | hx
    · exact DM_fail_head _ (by decide)
    rcases suffix_cons_cases hx with rfl | hx
    · exact DM_fail_head _ (by decide)
    rw [List.suffix_nil] at hx
    exact absurd hx hxne

theorem execLoopF_nil_input {α : Type}
    (matchAt : List Char → Option (α × List Char × List Char)) :
    ∀ fuel, execLoopF matchAt fuel [] = [] := by
  intro fuel
  cases fuel <;> rfl

theorem execLoopF_nil_of_fail {α : Type}
    (matchAt : List Char → Option (α × List Char × List Char)) :
    ∀ l : List Char, (∀ s, s <:+ l → matchAt s = none) →
      ∀ fuel, execLoopF matchAt fuel l = [] := by
  intro l
  induction l with
  | nil =>
    intro _ fuel
    cases fuel <;> rfl
  | cons c rest ih =>
    intro hfail fuel
    cases fuel with
    | zero => rfl
    | succ f =>
      simp only [execLoopF, hfail _ (List.suffix_refl _)]
      exact ih (fun s hs => hfail s (hs.trans (List.suffix_cons c rest))) f

/-- The default pass records nothing on a grouped-import statement. -/
theorem defaultMatches_grouped (A B C m : List Char)
    (hAid : ∀ c ∈ A, isIdentChar c = true)
    (hBid : ∀ c ∈ B, isIdentChar c = true)
    (hCne : C ≠ []) (hCid : ∀ c ∈ C, isIdentChar c = true)
    (hmw : ∀ c ∈ m, isJsSpace c = false) :
    defaultMatches (groupedStmt A B C m) = [] := by
  unfold defaultMatches execLoop
  exact execLoopF_nil_of_fail _ _
    (matchDefault_none_on_grouped A B C m hAid hBid hCne hCid hmw) _

theorem takeWhile_append_all {α : Type} {p : α → Bool} {x : List α}
    (hx : ∀ c ∈ x, p c = true) (y : List α) :
    (x ++ y).takeWhile p = x ++ y.takeWhile p := by
  induction x with
  | nil => simp
  | cons a t ih =>
    rw [List.cons_append, List.takeWhile_cons_of_pos (hx a (List.mem_cons_self _ _)),
      ih (fun c hc => hx c (List.mem_cons_of_mem _ hc)), List.cons_append]

theorem dropWhile_append_all {α : Type} {p : α → Bool} {x : List α}
    (hx : ∀ c ∈ x, p c = true) (y : List α) :
    (x ++ y).dropWhile p = y.dropWhile p := by
  induction x with
  | nil => simp
  | cons a t ih =>
    rw [List.cons_append, List.dropWhile_cons_of_pos (hx a (List.mem_cons_self _ _)),
      ih (fun c hc => hx c (List.mem_cons_of_mem _ hc))]

theorem takeWhile_cons_pos' {α : Type} (p : α → Bool) {a : α} (h : p a = true)
    (l : List α) : (a :: l).takeWhile p = a :: l.takeWhile p :=
  List.takeWhile_cons_of_pos h

theorem takeWhile_cons_neg' {α : Type} (p : α → Bool) {a : α} (h : p a = false)
    (l : List α) : (a :: l).takeWhile p = [] :=
  List.takeWhile_cons_of_neg (by simp [h])

theorem dropWhile_cons_pos' {α : Type} (p : α → Bool) {a : α} (h : p a = true)
    (l : List α) : (a :: l).dropWhile p = l.dropWhile p :=
  List.dropWhile_cons_of_pos h

theorem dropWhile_cons_neg' {α : Type} (p : α → Bool) {a : α} (h : p a = false)
    (l : List α) : (a :: l).dropWhile p = a :: l :=
  List.dropWhile_cons_of_neg (by simp [h])

theorem takeWhile_append_all' {α : Type} (p : α → Bool) {x : List α}
    (hx : ∀ c ∈ x, p c = true) (y : List α) :
    (x ++ y).takeWhile p = x ++ y.takeWhile p := takeWhile_append_all hx y

theorem dropWhile_append_all' {α : Type} (p : α → Bool) {x : List α}
    (hx : ∀ c ∈ x, p c = true) (y : List α) :
    (x ++ y).dropWhile p = y.dropWhile p := dropWhile_append_all hx y

/-- The grouped-import regex matches a grouped-import statement at
position zero, capturing the item-list text and consuming the entire
statement. -/
theorem matchNamed_grouped (A B C m : List Char)
    (hAid : ∀ c ∈ A, isIdentChar c = true)
    (hBid : ∀ c ∈ B, isIdentChar c = true)
    (hCid : ∀ c ∈ C, isIdentChar c = true)
    (hmne : m ≠ []) (hmq : ∀ c ∈ m, ¬c = '\'' ∧ ¬c = '"') :
    matchNamedImportAt (groupedStmt A B C m) =
      some (groupedItems A B C, groupedStmt A B C m, []) := by
  have hident_brace : ∀ (x : List Char), (∀ c ∈ x, isIdentChar c = true) →
      ∀ c ∈ x, (!(c == '}')) = true := by
    intro x hx c hc
    have h := hx c hc
    simp only [Bool.not_eq_true', beq_eq_false_iff_ne, ne_eq]
    intro he
    rw [he] at h
    exact absurd h (by decide)
  have hAp := hident_brace A hAid
  have hBp := hident_brace B hBid
  have hCp := hident_brace C hCid
  have hmp : ∀ c ∈ m, (!(isQuoteChar c)) = true := by
    intro c hc
    obtain ⟨h1, h2⟩ := hmq c hc
    simp [isQuoteChar, h1, h2]
  show matchNamedImportAt (importKw ++ (' ' :: '{' :: (' ' :: (A ++ (',' :: ' ' ::
    (B ++ (' ' :: 'a' :: 's' :: ' ' :: (C ++ (' ' :: '}' :: ' ' :: 'f' :: 'r' :: 'o' :: 'm' ::
      ' ' :: '"' :: (m ++ ['"', ';'])))))))))) = _
  simp only [matchNamedImportAt, consumeLit_self]
  rw [List.takeWhile_cons_of_pos (show isJsSpace ' ' = true by decide),
    List.takeWhile_cons_of_neg (show ¬isJsSpace '{' = true by decide)]
  rw [if_neg (by simp)]
  rw [List.dropWhile_cons_of_pos (show isJsSpace ' ' = true by decide),
    List.dropWhile_cons_of_neg (show ¬isJsSpace '{' = true by decide)]
  split
  · rename_i l3 heq
    injection heq with hh ht
    subst ht
    rw [takeWhile_cons_pos' (fun c => !(c == '}')) (by decide),
      takeWhile_append_all' (fun c => !(c == '}')) hAp,
      takeWhile_cons_pos' (fun c => !(c == '}')) (by decide),
      takeWhile_cons_pos' (fun c => !(c == '}')) (by decide),
      takeWhile_append_all' (fun c => !(c == '}')) hBp,
      takeWhile_cons_pos' (fun c => !(c == '}')) (by decide),
      takeWhile_cons_pos' (fun c => !(c == '}')) (by decide),
      takeWhile_cons_pos' (fun c => !(c == '}')) (by decide),
      takeWhile_cons_pos' (fun c => !(c == '}')) (by decide),
      takeWhile_append_all' (fun c => !(c == '}')) hCp,
      takeWhile_cons_pos' (fun c => !(c == '}')) (by decide),
      takeWhile_cons_neg' (fun c => !(c == '}')) (by decide)]
    rw [if_neg (by simp)]
    rw [dropWhile_cons_pos' (fun c => !(c == '}')) (by decide),
      dropWhile_append_all' (fun c => !(c == '}')) hAp,
      dropWhile_cons_pos' (fun c => !(c == '}')) (by decide),
      dropWhile_cons_pos' (fun c => !(c == '}')) (by decide),
      dropWhile_append_all' (fun c => !(c == '}')) hBp,
      dropWhile_cons_pos' (fun c => !(c == '}')) (by decide),
      dropWhile_cons_pos' (fun c => !(c == '}')) (by decide),
      dropWhile_cons_pos' (fun c => !(c == '}')) (by decide),
      dropWhile_cons_pos' (fun c => !(c == '}')) (by decide),
      dropWhile_append_all' (fun c => !(c == '}')) hCp,
      dropWhile_cons_pos' (fun c => !(c == '}')) (by decide),
      dropWhile_cons_neg' (fun c => !(c == '}')) (by decide)]
    split
    · rename_i l5 heq2
      injection heq2 with hh2 ht2
      subst ht2
      rw [List.takeWhile_cons_of_pos (show isJsSpace ' ' = true by decide),
        List.takeWhile_cons_of_neg (show ¬isJsSpace 'f' = true by decide)]
      rw [if_neg (by simp)]
      rw [List.dropWhile_cons_of_pos (show isJsSpace ' ' = true by decide),
        List.dropWhile_cons_of_neg (show ¬isJsSpace 'f' = true by decide)]
      rw [show ('f' :: 'r' :: 'o' :: 'm' :: (' ' :: '"' :: (m ++ ['"', ';']))) =
        fromKw ++ (' ' :: '"' :: (m ++ ['"', ';'])) from rfl]
      rw [consumeLit_self]
      split
      · rename_i heq3
        exact absurd heq3 (by simp)
      · rename_i l7 heq3
        injection heq3 with ht3
        subst ht3
        rw [List.takeWhile_cons_of_pos (show isJsSpace ' ' = true by decide),
          List.takeWhile_cons_of_neg (show ¬isJsSpace '"' = true by decide)]
        rw [if_neg (by simp)]
        rw [List.dropWhile_cons_of_pos (show isJsSpace ' ' = true by decide),
          List.dropWhile_cons_of_neg (show ¬isJsSpace '"' = true by decide)]
        split
        · rename_i heq4
          exact absurd heq4 (by simp)
        · rename_i q l9 heq4
          injection heq4 with hq hl9
          subst hq
          subst hl9
          rw [if_pos (show isQuoteChar '"' = true by decide)]
          rw [takeWhile_append_all' (fun c => !(isQuoteChar c)) hmp,
            takeWhile_cons_neg' (fun c => !(isQuoteChar c)) (by decide),
            List.append_nil]
          rw [if_neg hmne]
          rw [dropWhile_append_all' (fun c => !(isQuoteChar c)) hmp,
            dropWhile_cons_neg' (fun c => !(isQuoteChar c)) (by decide)]
          split
          · rename_i heq5
            exact absurd heq5 (by simp)
          · rename_i q2 l11 heq5
            injection heq5 with hq2 hl11
            subst hq2
            subst hl11
            rw [if_pos (show isQuoteChar '"' = true by decide)]
            split
            · rename_i l12 heq6
              injection heq6 with hs6 hl12
              subst hl12
              simp [groupedItems, groupedStmt, importKw, fromKw]
            · rename_i hcontra
              exact (hcontra _ rfl).elim
    · rename_i hcontra
      exact (hcontra _ rfl).elim
  · rename_i hcontra
    exact (hcontra _ rfl).elim

theorem execLoop_single {α : Type}
    (matchAt : List Char → Option (α × List Char × List Char)) (l : List Char)
    (a : α) (text : List Char) (hne : l ≠ []) (h : matchAt l = some (a, text, [])) :
    execLoop matchAt l = [(a, text)] := by
  obtain ⟨c, rest, rfl⟩ : ∃ c rest, l = c :: rest := by
    cases l with
    | nil => exact absurd rfl hne
    | cons c r => exact ⟨c, r, rfl⟩
  unfold execLoop
  simp only [List.length_cons, execLoopF, h]

/-- The grouped pass records exactly one match on a grouped-import
statement. -/
theorem namedMatches_grouped (A B C m : List Char)
    (hAid : ∀ c ∈ A, isIdentChar c = true)
    (hBid : ∀ c ∈ B, isIdentChar c = true)
    (hCid : ∀ c ∈ C, isIdentChar c = true)
    (hmne : m ≠ []) (hmq : ∀ c ∈ m, ¬c = '\'' ∧ ¬c = '"') :
    namedMatches (groupedStmt A B C m) =
      [(groupedItems A B C, groupedStmt A B C m)] := by
  unfold namedMatches
  exact execLoop_single _ _ _ _ (by rw [groupedStmt]; simp)
    (matchNamed_grouped A B C m hAid hBid hCid hmne hmq)

theorem splitOnChar_no_sep {sep : Char} {y : List Char} (hy : ∀ c ∈ y, ¬c = sep) :
    splitOnChar sep y = [y] := by
  induction y with
  | nil => rfl
  | cons c rest ih =>
    rw [splitOnChar, if_neg (hy c (List.mem_cons_self _ _))]
    rw [ih (fun d hd => hy d (List.mem_cons_of_mem _ hd))]

theorem splitOnChar_append_sep {sep : Char} {x : List Char} (y : List Char)
    (hx : ∀ c ∈ x, ¬c = sep) :
    splitOnChar sep (x ++ sep :: y) = x :: splitOnChar sep y := by
  induction x with
  | nil =>
    simp only [List.nil_append]
    rw [splitOnChar, if_pos rfl]
  | cons c t ih =>
    rw [List.cons_append, splitOnChar, if_neg (hx c (List.mem_cons_self _ _))]
    rw [ih (fun d hd => hx d (List.mem_cons_of_mem _ hd))]

theorem dropWhile_all {α : Type} {p : α → Bool} {x : List α}
    (hx : ∀ c ∈ x, p c = true) : x.dropWhile p = [] := by
  have h := dropWhile_append_all hx ([] : List α)
  simpa using h

theorem mem_of_head?' {α : Type} {l : List α} {c : α} (h : l.head? = some c) : c ∈ l := by
  cases l with
  | nil => simp at h
  | cons a t =>
    simp only [List.head?_cons, Option.some.injEq] at h
    rw [← h]
    exact List.mem_cons_self _ _

theorem mem_of_getLast?' {α : Type} {l : List α} {c : α} (h : l.getLast? = some c) :
    c ∈ l := by
  have h2 : l.reverse.head? = some c := by rw [List.head?_reverse]; exact h
  have := mem_of_head?' h2
  exact List.mem_reverse.mp this

/-- `trim` removes surrounding whitespace and nothing else. -/
theorem jsTrim_pad (pre suf y : List Char)
    (hpre : ∀ c ∈ pre, isJsSpace c = true) (hsuf : ∀ c ∈ suf, isJsSpace c = true)
    (hhead : ∀ c, y.head? = some c → isJsSpace c = false)
    (hlast : ∀ c, y.getLast? = some c → isJsSpace c = false) :
    jsTrim (pre ++ (y ++ suf)) = y := by
  unfold jsTrim
  rw [dropWhile_append_all hpre]
  cases y with
  | nil =>
    simp only [List.nil_append]
    rw [dropWhile_all hsuf]
    rfl
  | cons b0 y' =>
    rw [List.cons_append, List.dropWhile_cons_of_neg (by simp [hhead b0 rfl])]
    rw [show b0 :: (y' ++ suf) = (b0 :: y') ++ suf from rfl, List.reverse_append]
    rw [dropWhile_append_all (fun c hc => hsuf c (List.mem_reverse.mp hc))]
    cases hr : (b0 :: y').reverse with
    | nil => exact absurd hr (by simp)
    | cons c0 z =>
      have hc0 : (b0 :: y').getLast? = some c0 := by
        rw [← List.head?_reverse, hr]
        rfl
      rw [List.dropWhile_cons_of_neg (by simp [hlast c0 hc0])]
      rw [← hr, List.reverse_reverse]

theorem occursIn_append_self (pat x y : List Char) :
    occursIn pat (x ++ (pat ++ y)) = true := by
  induction x with
  | nil =>
    simp only [List.nil_append]
    have hp : pat.isPrefixOf (pat ++ y) = true := by
      rw [List.isPrefixOf_iff_prefix]
      exact List.prefix_append _ _
    cases hpy : pat ++ y with
    | nil =>
      have hpnil : pat = [] := (List.append_eq_nil.mp hpy).1
      subst hpnil
      rfl
    | cons c rest =>
      rw [hpy] at hp
      rw [occursIn, hp]
      rfl
  | cons c t ih =>
    rw [List.cons_append, occursIn, ih]
    simp

theorem splitOnSubF_no_occurrence {sep l : List Char}
    (h : occursIn sep l = false) : ∀ fuel, splitOnSubF sep fuel l = [l] := by
  induction l with
  | nil =>
    intro fuel
    cases fuel <;> rfl
  | cons c rest ih =>
    intro fuel
    rw [occursIn] at h
    simp only [Bool.or_eq_false_iff] at h
    cases fuel with
    | zero => rfl
    | succ f =>
      rw [splitOnSubF, if_neg (by simp [h.1])]
      rw [ih h.2 f]

theorem splitOnSubF_boundary {sep C : List Char} (hsepne : sep ≠ [])
    (hC : occursIn sep C = false) :
    ∀ B : List Char,
      (∀ b', b' <:+ B → b' ≠ [] → sep.isPrefixOf (b' ++ (sep ++ C)) = false) →
      ∀ fuel, B.length < fuel → splitOnSubF sep fuel (B ++ (sep ++ C)) = [B, C] := by
  intro B
  induction B with
  | nil =>
    intro _ fuel hf
    cases fuel with
    | zero => omega
    | succ f =>
      simp only [List.nil_append]
      obtain ⟨s0, sep', rfl⟩ : ∃ s0 s', sep = s0 :: s' := by
        cases sep with
        | nil => exact absurd rfl hsepne
        | cons a b => exact ⟨a, b, rfl⟩
      have hpref : (s0 :: sep').isPrefixOf ((s0 :: sep') ++ C) = true := by
        rw [List.isPrefixOf_iff_prefix]
        exact List.prefix_append _ _
      have hpref' : (s0 :: sep').isPrefixOf (s0 :: (sep' ++ C)) = true := hpref
      show splitOnSubF (s0 :: sep') (f + 1) (s0 :: (sep' ++ C)) = [[], C]
      rw [splitOnSubF, if_pos hpref']
      rw [show ((s0 :: (sep' ++ C)) : List Char) = (s0 :: sep') ++ C from rfl,
        List.drop_left]
      rw [splitOnSubF_no_occurrence hC f]
  | cons b B' ih =>
    intro hB fuel hf
    cases fuel with
    | zero =>
      simp only [List.length_cons] at hf
      omega
    | succ f =>
      rw [List.cons_append, splitOnSubF]
      rw [if_neg (by
        rw [show b :: (B' ++ (sep ++ C)) = (b :: B') ++ (sep ++ C) from rfl,
          hB (b :: B') (List.suffix_refl _) (by simp)]
        exact Bool.false_ne_true)]
      rw [ih (fun b' hs hne => hB b' (hs.trans (List.suffix_cons b B')) hne) f
        (by simp only [List.length_cons] at hf; omega)]

theorem hgetLast_append (x z : List Char) (hz : z ≠ []) :
    (x ++ z).getLast? = z.getLast? := by
  rw [← List.head?_reverse, ← List.head?_reverse, List.reverse_append]
  cases hzr : z.reverse with
  | nil => exact absurd (by simpa using congrArg List.reverse hzr) hz
  | cons a t => rfl

/-- On the captured item list of a grouped import, splitting at commas,
trimming, and resolving ` as ` aliases binds the plain item and the alias
(never the pre-alias original), each to the whole statement text. -/
theorem namedItemBindings_grouped (A B C stmt : List Char)
    (hAne : A ≠ []) (hAid : ∀ c ∈ A, isIdentChar c = true)
    (hBne : B ≠ []) (hBid : ∀ c ∈ B, isIdentChar c = true)
    (hCne : C ≠ []) (hCid : ∀ c ∈ C, isIdentChar c = true) :
    namedItemBindings (groupedItems A B C) stmt =
      [(String.mk A, String.mk stmt), (String.mk C, String.mk stmt)] := by
  have hsp : ∀ {x : List Char}, (∀ c ∈ x, isIdentChar c = true) → ' ' ∉ x := by
    intro x hx hmem
    exact absurd (hx ' ' hmem) (by decide)
  have hxA : ∀ c ∈ (' ' :: A), ¬c = ',' := by
    intro c hc he
    subst he
    rcases List.mem_cons.mp hc with h | h
    · exact absurd h (by decide)
    · exact absurd (hAid _ h) (by decide)
  have hyB : ∀ c ∈ (' ' :: (B ++ (' ' :: 'a' :: 's' :: ' ' :: (C ++ [' '])))), ¬c = ',' := by
    intro c hc he
    subst he
    simp only [List.mem_cons, List.mem_append, List.mem_singleton] at hc
    rcases hc with h | h | h | h | h | h | h | h
    · exact absurd h (by decide)
    · exact absurd (hBid _ h) (by decide)
    · exact absurd h (by decide)
    · exact absurd h (by decide)
    · exact absurd h (by decide)
    · exact absurd h (by decide)
    · exact absurd (hCid _ h) (by decide)
    · exact absurd h (by decide)
  have hsplit : splitOnChar ',' (groupedItems A B C) =
      [' ' :: A, ' ' :: (B ++ (' ' :: 'a' :: 's' :: ' ' :: (C ++ [' '])))] := by
    show splitOnChar ','
        ((' ' :: A) ++
          (',' :: (' ' :: (B ++ (' ' :: 'a' :: 's' :: ' ' :: (C ++ [' '])))))) = _
    rw [splitOnChar_append_sep _ hxA, splitOnChar_no_sep hyB]
  have htrimA : jsTrim (' ' :: A) = A := by
    have h := jsTrim_pad [' '] [] A (by decide) (by decide)
      (fun c hc => isIdentChar_not_space (hAid c (mem_of_head?' hc)))
      (fun c hc => isIdentChar_not_space (hAid c (mem_of_getLast?' hc)))
    simpa using h
  have hhead2 : ∀ c, (B ++ (asKw ++ C)).head? = some c → isJsSpace c = false := by
    intro c hc
    cases B with
    | nil => exact absurd rfl hBne
    | cons b0 B' =>
      simp only [List.cons_append, List.head?_cons, Option.some.injEq] at hc
      subst hc
      exact isIdentChar_not_space (hBid _ (List.mem_cons_self _ _))
  have hlast2 : ∀ c, (B ++ (asKw ++ C)).getLast? = some c → isJsSpace c = false := by
    intro c hc
    rw [hgetLast_append B _ (by simp [asKw]), hgetLast_append asKw C hCne] at hc
    exact isIdentChar_not_space (hCid c (mem_of_getLast?' hc))
  have htrim2 : jsTrim (' ' :: (B ++ (' ' :: 'a' :: 's' :: ' ' :: (C ++ [' '])))) =
      B ++ (asKw ++ C) := by
    have h := jsTrim_pad [' '] [' '] (B ++ (asKw ++ C)) (by decide) (by decide)
      hhead2 hlast2
    rw [← h]
    congr 1
    simp [asKw]
  have hoccA : occursIn asKw A = false :=
    occursIn_false_of_head_not_mem A (hsp hAid)
  have hoccC : occursIn asKw C = false :=
    occursIn_false_of_head_not_mem C (hsp hCid)
  have hocc2 : occursIn asKw (B ++ (asKw ++ C)) = true :=
    occursIn_append_self asKw B C
  have hsub : splitOnSub asKw (B ++ (asKw ++ C)) = [B, C] := by
    unfold splitOnSub
    refine splitOnSubF_boundary (by simp [asKw]) hoccC B ?_ _ ?_
    · intro b' hs hne
      obtain ⟨d, t, rfl⟩ : ∃ d t, b' = d :: t := by
        cases b' with
        | nil => exact absurd rfl hne
        | cons x xs => exact ⟨x, xs, rfl⟩
      have hd : d ∈ B := hs.subset (List.mem_cons_self _ _)
      have hdne : ¬(' ' = d) := fun he => hsp hBid (he ▸ hd)
      exact isPrefixOf_cons_ne hdne _ _
    · simp only [List.length_append]
      omega
  have htrimC : jsTrim C = C := by
    have h := jsTrim_pad [] [] C (by decide) (by decide)
      (fun c hc => isIdentChar_not_space (hCid c (mem_of_head?' hc)))
      (fun c hc => isIdentChar_not_space (hCid c (mem_of_getLast?' hc)))
    simpa using h
  unfold namedItemBindings
  rw [hsplit]
  simp only [List.map_cons, List.map_nil]
  rw [htrimA, htrim2, hoccA, hocc2, hsub]
  simp only [Bool.false_eq_true, if_false, if_true]
  rw [show (([B, C].get? 1).getD []) = C from rfl, htrimC]

/-- C2: for a grouped-style import statement `import \x7b A, B as C \x7d from "m";`,
`extractImportStatements` binds the plain item name `A` and the alias `C`
(never the pre-alias original `B`), and both bindings carry the entire
matched statement text. -/
theorem grouped_import_binds_alias (A B C m : List Char)
    (hAne : A ≠ []) (hAid : ∀ c ∈ A, isIdentChar c = true)
    (hBne : B ≠ []) (hBid : ∀ c ∈ B, isIdentChar c = true)
    (hCne : C ≠ []) (hCid : ∀ c ∈ C, isIdentChar c = true)
    (hmne : m ≠ [])
    (hm : ∀ c ∈ m, isJsSpace c = false ∧ ¬c = '\'' ∧ ¬c = '"')
    (hBA : ¬B = A) (hBC : ¬B = C) :
    bindingLookup (extractImportStatements (String.mk (groupedStmt A B C m)))
        (String.mk A) = some (String.mk (groupedStmt A B C m)) ∧
    bindingLookup (extractImportStatements (String.mk (groupedStmt A B C m)))
        (String.mk C) = some (String.mk (groupedStmt A B C m)) ∧
    bindingLookup (extractImportStatements (String.mk (groupedStmt A B C m)))
        (String.mk B) = none := by
  have hstmt : (String.mk (groupedStmt A B C m)).toList = groupedStmt A B C m := rfl
  have hd : defaultBindingList (String.mk (groupedStmt A B C m)).toList = [] := by
    rw [hstmt]
    unfold defaultBindingList
    rw [defaultMatches_grouped A B C m hAid hBid hCne hCid (fun c hc => (hm c hc).1)]
    rfl
  have hn : namedBindingList (String.mk (groupedStmt A B C m)).toList =
      [(String.mk A, String.mk (groupedStmt A B C m)),
       (String.mk C, String.mk (groupedStmt A B C m))] := by
    rw [hstmt]
    unfold namedBindingList
    rw [namedMatches_grouped A B C m hAid hBid hCid hmne (fun c hc => (hm c hc).2)]
    simp only [List.flatMap_cons, List.flatMap_nil, List.append_nil]
    exact namedItemBindings_grouped A B C _ hAne hAid hBne hBid hCne hCid
  have hmap : extractImportStatements (String.mk (groupedStmt A B C m)) =
      [(String.mk C, String.mk (groupedStmt A B C m)),
       (String.mk A, String.mk (groupedStmt A B C m))] := by
    rw [extractImportStatements_eq_passes, hd, hn]
    rfl
  rw [hmap]
  have h1 : ¬String.mk C = String.mk B :=
    fun he => hBC ((congrArg String.data he).symm : B = C)
  have h2 : ¬String.mk A = String.mk B :=
    fun he => hBA ((congrArg String.data he).symm : B = A)
  refine ⟨?_, ?_, ?_⟩
  · by_cases hCA : String.mk C = String.mk A
    · unfold bindingLookup
      rw [List.find?_cons_of_pos _ (by simp [hCA])]
      rfl
    · unfold bindingLookup
      rw [List.find?_cons_of_neg _ (by simp [hCA]), List.find?_cons_of_pos _ (by simp)]
      rfl
  · unfold bindingLookup
    rw [List.find?_cons_of_pos _ (by simp)]
    rfl
  · unfold bindingLookup
    rw [List.find?_cons_of_neg _ (by simp [h1]), List.find?_cons_of_neg _ (by simp [h2])]
    rfl

/-- Witness for C2: the concrete statement `import \x7b A, B as C \x7d from "m";`
binds `A` and `C` to the whole statement and leaves `B` unbound. -/
theorem grouped_import_binds_alias_witness :
    bindingLookup (extractImportStatements (String.mk (groupedStmt ['A'] ['B'] ['C'] ['m'])))
        (String.mk ['A']) = some (String.mk (groupedStmt ['A'] ['B'] ['C'] ['m'])) ∧
    bindingLookup (extractImportStatements (String.mk (groupedStmt ['A'] ['B'] ['C'] ['m'])))
        (String.mk ['C']) = some (String.mk (groupedStmt ['A'] ['B'] ['C'] ['m'])) ∧
    bindingLookup (extractImportStatements (String.mk (groupedStmt ['A'] ['B'] ['C'] ['m'])))
        (String.mk ['B']) = none :=
  grouped_import_binds_alias ['A'] ['B'] ['C'] ['m'] (by decide) (by decide) (by decide)
    (by decide) (by decide) (by decide) (by decide) (by decide) (by decide) (by decide)
